import Mathlib

/-!
Verification of the phylo-js (mini-ete3-js) tree library.

The mutable `TreeNode` object graph of `src/TreeNode.ts` is embedded as a
heap: nodes are natural-number identities, and every `TreeNode` field is a
function from identities to values.  A JavaScript child array may contain
holes (created by `delete this.children[i]` in `removeChild`), so a child
array is a `List (Option Nat)`; `none` is a hole.  Mutating methods become
functions from heaps to heaps; a method that can `throw` returns an
`Except` whose error carries the message together with the heap at the
moment of the throw.

Traversal orders (`iterDescendantsPreorder` and friends) and the Newick
codec are referenced by the sources but their implementations are not part
of the repository snapshot; where a claim needs them they are modelled
from the specification, and marked as such.
-/

namespace PhyloJs

/-- Heap of TreeNode objects.  `up`, `children`, `name`, `dist`, `support`
are the object fields of `TreeNode` (`src/TreeNode.ts`), indexed by node
identity.  `fresh` is the next unused identity, used when `new TreeNode()`
allocates a node.  A slot `none` in a children array is a JavaScript hole
left behind by `delete this.children[childIndex]`. -/
structure Heap where
  up : Nat → Option Nat
  children : Nat → List (Option Nat)
  name : Nat → String
  dist : Nat → ℚ
  support : Nat → ℚ
  fresh : Nat

/-- Pointwise function update, used to model assignment to an object field. -/
def upd {α : Type} (f : Nat → α) (i : Nat) (a : α) : Nat → α :=
  fun j => if j = i then a else f j

/-- JavaScript truthiness for an optional string argument:
`x ? x : old` keeps `old` when the argument is absent or the empty string. -/
def truthyStr : Option String → String → String
  | some s, old => if s = "" then old else s
  | none, old => old

/-- JavaScript truthiness for an optional numeric argument:
`x ? x : old` keeps `old` when the argument is absent or `0`. -/
def truthyNum : Option ℚ → ℚ → ℚ
  | some d, old => if d = 0 then old else d
  | none, old => old

/-- Effect of `delete this.children[this.children.indexOf(child)]`:
the first slot holding `child` becomes a hole (`none`); the array length is
unchanged.  Returns `none` when `indexOf` is `-1` (no slot holds `child`);
holes are skipped by `indexOf`, matching JavaScript. -/
def removeFirstSlot (l : List (Option Nat)) (c : Nat) : Option (List (Option Nat)) :=
  match l with
  | [] => none
  | x :: xs =>
    if x = some c then some (none :: xs)
    else (removeFirstSlot xs c).map (fun ys => x :: ys)

/-- Body of `addChild` (src/TreeNode.ts:240-245) once the child object
exists: `child.up = this`, the three `arg ? arg : child.field` overrides,
`this.children.push(child)`, `return child`. -/
def addChildCore (h : Heap) (p c : Nat) (nm : Option String) (d sup : Option ℚ) :
    Nat × Heap :=
  (c, { h with
        up := upd h.up c (some p)
        name := upd h.name c (truthyStr nm (h.name c))
        dist := upd h.dist c (truthyNum d (h.dist c))
        support := upd h.support c (truthyNum sup (h.support c))
        children := upd h.children p (h.children p ++ [some c]) })

/-- Allocation `new TreeNode()` with defaulted arguments: empty children,
no parent, `dist = 1.0`, `support = 1.0`, `name = ""` (the defaults of the
constructor). -/
def allocNode (h : Heap) : Nat × Heap :=
  (h.fresh, { h with
    up := upd h.up h.fresh none
    children := upd h.children h.fresh []
    name := upd h.name h.fresh ""
    dist := upd h.dist h.fresh 1
    support := upd h.support h.fresh 1
    fresh := h.fresh + 1 })

/-- Method `addChild(child?, name?, dist?, support?)`.  When no child (or a
non-TreeNode value) is supplied a fresh default node is allocated; in the
embedding `none` stands for both. -/
def addChild (h : Heap) (p : Nat) (child : Option Nat) (nm : Option String)
    (d sup : Option ℚ) : Nat × Heap :=
  match child with
  | some c => addChildCore h p c nm d sup
  | none =>
    let r := allocNode h
    addChildCore r.2 p r.1 nm d sup

/-- Method `removeChild(child)` (src/TreeNode.ts:256-265): holes the first
slot holding `child`, sets `child.up = null` and returns the child; throws
when `indexOf` returned `-1`.  The error carries the heap at the throw,
which here is the unmutated input heap. -/
def removeChild (h : Heap) (p c : Nat) : Except (String × Heap) (Nat × Heap) :=
  match removeFirstSlot (h.children p) c with
  | some l =>
    .ok (c, { h with children := upd h.children p l, up := upd h.up c none })
  | none => .error ("Error: child not found", h)

/-- Method `detach()` (src/TreeNode.ts:359-366): `this.up.removeChild(this)`
when a parent exists, then `this.up = null`, returning the node. -/
def detach (h : Heap) (n : Nat) : Except (String × Heap) (Nat × Heap) :=
  match h.up n with
  | some p =>
    match removeChild h p n with
    | .error e => .error e
    | .ok (_, h1) => .ok (n, { h1 with up := upd h1.up n none })
  | none => .ok (n, { h with up := upd h.up n none })

/-- Method `addSister(sister?, name?, dist?)` (src/TreeNode.ts:271-277):
delegates to the parent's `addChild` (with no support argument), throwing
when the node is a root. -/
def addSister (h : Heap) (s : Nat) (sister : Option Nat) (nm : Option String)
    (d : Option ℚ) : Except (String × Heap) (Nat × Heap) :=
  match h.up s with
  | none => .error ("Error: A parent node is required to add a sister", h)
  | some p => .ok (addChild h p sister nm d none)

/-- Method `getSisters()` (src/TreeNode.ts:509-515): a fresh array holding
every slot of the parent's children whose value is not `this`.  lodash
`filter` visits holes too (their value `undefined` differs from `this`),
so holes survive into the copy. -/
def getSisters (h : Heap) (s : Nat) : List (Option Nat) :=
  match h.up s with
  | some p => (h.children p).filter (fun slot => slot ≠ some s)
  | none => []

/-- Method `remove_sister(sister)` (src/TreeNode.ts:287-300).  With no
argument it calls `shift()` on the copy returned by `getSisters`, so the
tree itself is not mutated and the first sister slot is returned.  The
result value `none` models the `undefined` returned when there are no
sisters. -/
def remove_sister (h : Heap) (s : Nat) (sister : Option Nat) :
    Except (String × Heap) (Option (Option Nat) × Heap) :=
  match h.up s with
  | none => .error ("Error: A parent node is required to remove a sister", h)
  | some p =>
    let sisters := getSisters h s
    if sisters.length > 0 then
      match sister with
      | none => .ok (sisters.head?, h)
      | some sis =>
        match removeChild h p sis with
        | .error e => .error e
        | .ok (c, h1) => .ok (some (some c), h1)
    else .ok (none, h)

/-- Branch-length transfer of `delete` (src/TreeNode.ts:332-339): the
branch test reads `this.children.length`, which counts holes, so
`this.children[0]` can be a hole, in which case reading `.dist` of
`undefined` raises a TypeError before anything is mutated. -/
def distTransfer (h : Heap) (n parent : Nat) (preserve : Bool) :
    Except (String × Heap) Heap :=
  if preserve then
    if (h.children n).length = 1 then
      match (h.children n).head? with
      | some (some c) => .ok { h with dist := upd h.dist c (h.dist c + h.dist n) }
      | _ => .error ("TypeError: cannot read dist of undefined", h)
    else if (h.children n).length > 1 then
      .ok { h with dist := upd h.dist parent (h.dist parent + h.dist n) }
    else .ok h
  else .ok h

/-- Reattachment loop of `delete`:
`children.forEach(child => parent.addChild(child))` over the present
slots of the deleted node's children (holes are skipped, and `forEach`
visits only the elements present when the loop starts). -/
def reattachChildren (h1 : Heap) (n parent : Nat) : Heap :=
  ((h1.children n).filterMap id).foldl
    (fun hh c => (addChildCore hh parent c none none none).2) h1

/-- Method `delete(prevent_nondicotomic = true, preserve_branch_length = false)`
(src/TreeNode.ts:328-352): transfer branch lengths when requested, reattach
the present children to the parent, splice the node out with
`parent.removeChild(this)`, and recurse on the parent when
`prevent_nondicotomic` holds and the parent's children array (holes
included) has length below two.  `fuel` bounds the recursion; exhausted
fuel is reported as an error carrying the current heap, so theorems about
an `ok` result speak about a complete run. -/
def delete (fuel : Nat) (h : Heap) (n : Nat) (prevent preserve : Bool) :
    Except (String × Heap) Heap :=
  match fuel with
  | 0 => .error ("out of fuel", h)
  | fuel + 1 =>
    match h.up n with
    | none => .ok h
    | some parent =>
      match distTransfer h n parent preserve with
      | .error e => .error e
      | .ok h1 =>
        let h2 := reattachChildren h1 n parent
        match removeChild h2 parent n with
        | .error e => .error e
        | .ok (_, h3) =>
          if prevent ∧ (h3.children parent).length < 2 then
            delete fuel h3 parent prevent preserve
          else .ok h3

/-- Heap resulting from an operation returning a value and a heap; on a
throw this is the heap at the moment of the throw. -/
def resHeap {α : Type} : Except (String × Heap) (α × Heap) → Heap
  | .ok r => r.2
  | .error e => e.2

/-- Heap resulting from `delete`; on a throw this is the heap at the
moment of the throw. -/
def resHeapD : Except (String × Heap) Heap → Heap
  | .ok h => h
  | .error e => e.2

/-- Present (non-hole) children of a node, in slot order; this is what
`forEach`, `includes` and `indexOf` see. -/
def presentChildren (h : Heap) (p : Nat) : List Nat :=
  (h.children p).filterMap id

/-- Reachability from a root by repeatedly following child slots (holes
have no node to follow). -/
inductive Reach (h : Heap) (r : Nat) : Nat → Prop
  | refl : Reach h r r
  | step {p n : Nat} : Reach h r p → some n ∈ h.children p → Reach h r n

/-- Well-formedness of the tree rooted at `r`: the parent/child `iff`
consistency of the specification, sharpened with the facts that make it an
actual rooted tree — a node occurs in at most one slot of at most one
reachable parent, the root has no parent, every reachable node is an
allocated identity, and unallocated identities are blank. -/
structure Inv (h : Heap) (r : Nat) : Prop where
  root_up : h.up r = none
  parent_iff : ∀ {n p : Nat}, Reach h r n → Reach h r p →
    (h.up n = some p ↔ some n ∈ h.children p)
  once_across : ∀ {n p q : Nat}, Reach h r p → Reach h r q →
    some n ∈ h.children p → some n ∈ h.children q → p = q
  once_within : ∀ {n p : Nat}, Reach h r p → List.count (some n) (h.children p) ≤ 1
  reach_lt_fresh : ∀ {n : Nat}, Reach h r n → n < h.fresh
  unalloc : ∀ {n : Nat}, h.fresh ≤ n → h.up n = none ∧ h.children n = []

/-- Parent/child consistency exactly as the specification asserts it:
`n.up == p ⟺ n ∈ p.children` over reachable nodes, and no node in the
children arrays of two distinct reachable parents. -/
def SpecInv (h : Heap) (r : Nat) : Prop :=
  (∀ n p, Reach h r n → Reach h r p → (h.up n = some p ↔ some n ∈ h.children p)) ∧
  (∀ n p q, Reach h r p → Reach h r q →
    some n ∈ h.children p → some n ∈ h.children q → p = q)

/-! Traversal engine.  The dispatcher `traverse(strategy, isLeafFn)`
(src/TreeNode.ts:595-603) forwards to `iterDescendantsPreorder`,
`iterDescendantsLevelorder` and `iterDescendantsPostorder`, none of which
are present in the repository snapshot.  The three orders are therefore
modelled from the specification over immutable rose trees. -/

/-- Rose-tree value of a node, mirroring the `TreeNode` fields that the
traversal claims are about. -/
inductive TNode where
  | mk (name : String) (dist support : ℚ) (children : List TNode)
deriving Repr

/-- Name of a node. -/
def TNode.name : TNode → String
  | .mk s _ _ _ => s

/-- Children of a node. -/
def TNode.children : TNode → List TNode
  | .mk _ _ _ cs => cs

mutual
/-- Number of nodes in a tree. -/
def tsize : TNode → Nat
  | .mk _ _ _ cs => 1 + tsizeList cs
/-- Number of nodes in a forest. -/
def tsizeList : List TNode → Nat
  | [] => 0
  | t :: ts => tsize t + tsizeList ts
end

mutual
/-- Modelled from the spec: preorder traversal — a node is produced before
its children, depth-first, children in stored order
(`iterDescendantsPreorder` is not in the repository snapshot). -/
def preorder : TNode → List TNode
  | .mk s d su cs => .mk s d su cs :: preorderList cs
/-- Modelled from the spec: preorder traversal of a forest, left to right. -/
def preorderList : List TNode → List TNode
  | [] => []
  | t :: ts => preorder t ++ preorderList ts
end

mutual
/-- Modelled from the spec: postorder traversal — a node is produced after
all of its descendants (`iterDescendantsPostorder` is not in the
repository snapshot). -/
def postorder : TNode → List TNode
  | .mk s d su cs => postorderList cs ++ [.mk s d su cs]
/-- Modelled from the spec: postorder traversal of a forest, left to right. -/
def postorderList : List TNode → List TNode
  | [] => []
  | t :: ts => postorder t ++ postorderList ts
end

/-- Modelled from the spec: levelorder (breadth-first) traversal of a
queue of subtrees — nodes in order of depth, ties broken by stored sibling
order (`iterDescendantsLevelorder` is not in the repository snapshot). -/
def levelorder : List TNode → List TNode
  | [] => []
  | t :: q => t :: levelorder (q ++ t.children)
termination_by q => tsizeList q
decreasing_by
  have happ : ∀ (a b : List TNode), tsizeList (a ++ b) = tsizeList a + tsizeList b := by
    intro a b
    induction a with
    | nil =>
      show tsizeList b = 0 + tsizeList b
      omega
    | cons x xs ih =>
      show tsize x + tsizeList (xs ++ b) = tsize x + tsizeList xs + tsizeList b
      omega
  have hch : tsizeList t.children + 1 ≤ tsize t := by
    cases t with | mk s d su cs =>
      simp only [tsize, TNode.children]
      omega
  simp only [tsizeList, happ]
  omega

/-- Dispatcher `traverse(strategy)` (src/TreeNode.ts:595-603): the three
recognised strategies, `none` for anything else (the function falls
through and returns `undefined`). -/
def traverse (t : TNode) (strategy : String) : Option (List TNode) :=
  if strategy = "preorder" then some (preorder t)
  else if strategy = "levelorder" then some (levelorder [t])
  else if strategy = "postorder" then some (postorder t)
  else none

/-- Descendants of a node (`iterDescendants`: the traversal from the node
minus the node itself; the default strategy is levelorder).  The start
node is yielded first by the levelorder traversal and, object identity
being unique, it is exactly the element the `n is not this` test drops,
so the descendants are the levelorder traversal of the children. -/
def getDescendants (t : TNode) : List TNode :=
  levelorder t.children

/-- Argument of `contains`: a TreeNode, a string, or anything else. -/
inductive ContainsArg where
  | node (t : TNode)
  | str (s : String)
  | other

mutual
/-- Decidable structural equality on rose trees. -/
def tnodeDecEq : (a b : TNode) → Decidable (a = b)
  | .mk s d su cs, .mk s2 d2 su2 cs2 =>
    have hcs : Decidable (cs = cs2) := tlistDecEq cs cs2
    decidable_of_iff (s = s2 ∧ d = d2 ∧ su = su2 ∧ cs = cs2) (by
      constructor
      · rintro ⟨h1, h2, h3, h4⟩
        rw [h1, h2, h3, h4]
      · intro he
        injection he with h1 h2 h3 h4
        exact ⟨h1, h2, h3, h4⟩)
/-- Decidable structural equality on rose-tree lists. -/
def tlistDecEq : (a b : List TNode) → Decidable (a = b)
  | [], [] => isTrue rfl
  | [], _ :: _ => isFalse (by simp)
  | _ :: _, [] => isFalse (by simp)
  | x :: xs, y :: ys =>
    have h1 : Decidable (x = y) := tnodeDecEq x y
    have h2 : Decidable (xs = ys) := tlistDecEq xs ys
    decidable_of_iff (x = y ∧ xs = ys) (by
      constructor
      · rintro ⟨ha, hb⟩
        rw [ha, hb]
      · intro he
        injection he with ha hb
        exact ⟨ha, hb⟩)
end

instance : DecidableEq TNode := tnodeDecEq

/-- Method `contains(item)` (src/TreeNode.ts:114-121): a TreeNode is
tested for membership among the descendants (`getDescendants().includes`),
a string among the names of the full default traversal
(`this.traverse().map(n => n.name).includes`); any other argument falls
off the end of the method, returning `undefined` (`none`). -/
def contains (t : TNode) (item : ContainsArg) : Option Bool :=
  match item with
  | .node u => some (decide (u ∈ getDescendants t))
  | .str s => some (decide (s ∈ (levelorder [t]).map TNode.name))
  | .other => none

/-! Common ancestor (src/helperFunctions.ts:61-118) and name resolution
(src/helperFunctions.ts:8-46), embedded over the heap. -/

/-- Upward path of a node to the root, the `while (currentNode !== null)`
walk of `getCommonAncestor`; `fuel` bounds the walk and `none` reports
exhaustion (the walk of a well-formed tree always terminates). -/
def upPath (h : Heap) : Nat → Nat → Option (List Nat)
  | 0, _ => none
  | fuel + 1, x =>
    match h.up x with
    | none => some [x]
    | some p => (upPath h fuel p).map (fun l => x :: l)

/-- Update-or-append on an association list, the effect of
`record[key] = value` on a JavaScript object: an existing key keeps its
position and gets the new value, a new key is appended. -/
def assocUpd (m : List (String × List Nat)) (k : String) (v : List Nat) :
    List (String × List Nat) :=
  if m.any (fun kv => kv.1 = k) then
    m.map (fun kv => if kv.1 = k then (k, v) else kv)
  else m ++ [(k, v)]

/-- Accumulation of `nodeToPath[targetNode.name] = targetNodePath` over the
targets, in order.  Paths are value lists; the JavaScript `Set` only ever
gets membership queries. -/
def buildPaths (h : Heap) (fuel : Nat) :
    List Nat → List (String × List Nat) → Option (List (String × List Nat))
  | [], m => some m
  | t :: ts, m =>
    match upPath h fuel t with
    | none => none
    | some pth => buildPaths h fuel ts (assocUpd m (h.name t) pth)

/-- Result of `getCommonAncestor`: the common node, paired with the
name-keyed path map when `getPath` was requested (the JavaScript function
returns a bare node or a `{common, paths}` record depending on the flag). -/
structure GCAOut where
  common : Nat
  paths : Option (List (String × List Nat))
deriving Repr, DecidableEq

/-- Function `getCommonAncestor(targetNodes, getPath = false)`
(src/helperFunctions.ts:61-118): error on no targets; a single target is
returned as is (with an empty path map when requested); otherwise the
first target's upward path is probed in order for a node present in every
path of the name-keyed map, and a missing fuel or a failed probe produce
the corresponding errors. -/
def getCommonAncestor (h : Heap) (fuel : Nat) (targetNodes : List Nat)
    (getPath : Bool) : Except String GCAOut :=
  match targetNodes with
  | [] => .error "getCommonAncestor called with an empty array"
  | [t] => .ok ⟨t, if getPath then some [] else none⟩
  | t1 :: _ :: _ =>
    match upPath h fuel t1, buildPaths h fuel targetNodes [] with
    | some reference, some m =>
      match reference.find? (fun nd => m.all (fun kv => decide (nd ∈ kv.2))) with
      | some c => .ok ⟨c, if getPath then some m else none⟩
      | none => .error "Nodes are not connected!"
    | _, _ => .error "out of fuel"

/-- Lookup in an association list: the value of the first entry carrying
the key. -/
def alookup : List (String × List Nat) → String → Option (List Nat)
  | [], _ => none
  | kv :: rest, k => if kv.1 = k then some kv.2 else alookup rest k

/-- The last node of the list whose name is `k`: the node whose upward
path survives in `nodeToPath[k]` after the last-writer-wins assignments of
`getCommonAncestor`. -/
def lastNamed (h : Heap) (k : String) : List Nat → Option Nat
  | [] => none
  | t :: ts =>
    match lastNamed h k ts with
    | some u => some u
    | none => if h.name t = k then some t else none

/-- The membership test `getCommonAncestor` actually performs on a
candidate `nd`: for every target, `nd` lies on the upward path of the
LAST target carrying the same name (not necessarily on the target's own
path). -/
def inEveryNamedPath (h : Heap) (fuel : Nat) (ts : List Nat) (nd : Nat) : Prop :=
  ∀ t ∈ ts, ∃ u pth, lastNamed h (h.name t) ts = some u ∧
    upPath h fuel u = some pth ∧ nd ∈ pth

/-- Modelled from the spec: a breadth-first traversal of the heap tree,
standing in for `root.traverse()` inside `_translateNodes` (the levelorder
producer the dispatcher forwards to is not in the repository snapshot).
Holes are skipped; `fuel` bounds the walk. -/
def traverseLevelH (h : Heap) : Nat → List Nat → List Nat
  | 0, _ => []
  | _, [] => []
  | fuel + 1, n :: q => n :: traverseLevelH h fuel (q ++ (h.children n).filterMap id)

/-- Element of the mixed reference/name collection passed to
`_translateNodes`: a node, a name string, or anything else. -/
inductive RefItem where
  | node (n : Nat)
  | str (s : String)
  | other

/-- JavaScript `name in Object.keys(name2node)`: the `in` operator on an
array tests property names, which for an array of `len` elements are the
index strings `"0"`, ..., `toString (len - 1)` and `"length"`.  Members of
`Array.prototype` are also `in`; none of the names exercised by the
claims collide with them, so they are omitted. -/
def jsInArrayKeys (s : String) (len : Nat) : Bool :=
  (List.range len).any (fun i => s = toString i) || s = "length"

/-- Lookup in the association list modelling `name2node`. -/
def assocLookup (m : List (String × Option Nat)) (k : String) : Option (Option Nat) :=
  match m with
  | [] => none
  | kv :: rest => if kv.1 = k then some kv.2 else assocLookup rest k

/-- Update-or-append on the `name2node` association list. -/
def assocSet (m : List (String × Option Nat)) (k : String) (v : Option Nat) :
    List (String × Option Nat) :=
  if m.any (fun kv => kv.1 = k) then
    m.map (fun kv => if kv.1 = k then (k, v) else kv)
  else m ++ [(k, v)]

/-- Loop `root.traverse().forEach(...)` of `_translateNodes`
(src/helperFunctions.ts:18-26): the guard is `n.name in Object.keys(name2node)`
— the JavaScript `in` operator against the keys array, not a membership
test of the keys.  When the guard holds, `name2node[n.name] !== null`
throws the ambiguity error: that happens both when the name was resolved
before and when the name is not a key at all (`undefined !== null`). -/
def resolveLoop (h : Heap) :
    List Nat → List (String × Option Nat) → Except String (List (String × Option Nat))
  | [], m => .ok m
  | n :: ns, m =>
    if jsInArrayKeys (h.name n) m.length then
      match assocLookup m (h.name n) with
      | some none => resolveLoop h ns (assocSet m (h.name n) (some n))
      | _ => .error ("Ambiguous node name: " ++ h.name n)
    else resolveLoop h ns m

/-- Result of `_translateNodes`.  The final statement
`validNodes += Object.values(name2node)` applies `+=` to an array, which
coerces both sides to strings and concatenates: the function returns a
string, never an array of nodes.  The string's content is irrelevant to
the claims, so it is represented by a single constructor. -/
inductive TranslateRet where
  | jsString
deriving Repr, DecidableEq

/-- Function `_translateNodes(root, nodes)` (src/helperFunctions.ts:8-46):
collects requested names as null entries, runs the traversal loop, throws
the not-found error listing names still null, throws on an element that is
neither node nor string (the source appends the offending element's string
coercion to "Invalid node type: "; an `other` element has no modelled
representation, so the message is kept without the suffix), and finally
falls into the `+=` string concatenation. -/
def _translateNodes (h : Heap) (fuel : Nat) (root : Nat) (items : List RefItem) :
    Except String TranslateRet :=
  let m0 : List (String × Option Nat) :=
    items.foldl (fun m it =>
      match it with
      | .str s => assocSet m s none
      | _ => m) []
  let afterLoop : Except String (List (String × Option Nat)) :=
    if m0.length > 0 then resolveLoop h (traverseLevelH h fuel [root]) m0
    else .ok m0
  match afterLoop with
  | .error e => .error e
  | .ok m1 =>
    if m1.any (fun kv => kv.2 = none) then
      .error ("Node name(s) not found: " ++
        String.intercalate ", " ((m1.filter (fun kv => kv.2 = none)).map (fun kv => kv.1)))
    else
      match items.find? (fun it =>
          match it with
          | .other => true
          | _ => false) with
      | some _ => .error "Invalid node type"
      | none => .ok .jsString

/-! Basic facts about reachability and the tree invariant. -/

/-- Transitivity of reachability. -/
theorem Reach.trans {h : Heap} {a b c : Nat} (hab : Reach h a b) (hbc : Reach h b c) :
    Reach h a c := by
  induction hbc with
  | refl => exact hab
  | step _ hmem ih => exact Reach.step ih hmem

/-- Every reachable node is the root or sits in the children of a
reachable node. -/
theorem reach_cases {h : Heap} {r n : Nat} (hn : Reach h r n) :
    n = r ∨ ∃ p, Reach h r p ∧ some n ∈ h.children p := by
  cases hn with
  | refl => exact Or.inl rfl
  | step hp hmem => exact Or.inr ⟨_, hp, hmem⟩

/-- Reachability only explores nodes listed in a closed superset (the
closure condition is decidable on a concrete heap). -/
theorem reach_mem_of_closed {h : Heap} {r : Nat} {L : List Nat} (hr : r ∈ L)
    (hc : ∀ p ∈ L, ∀ s ∈ h.children p, s.getD r ∈ L) :
    ∀ {n}, Reach h r n → n ∈ L := by
  intro n hn
  induction hn with
  | refl => exact hr
  | step hp hmem ih => exact hc _ ih _ hmem

/-- Reachability is monotone along pointwise inclusion of child slots. -/
theorem reach_mono {h h2 : Heap} {r : Nat}
    (hsub : ∀ q x, some x ∈ h.children q → some x ∈ h2.children q) :
    ∀ {n}, Reach h r n → Reach h2 r n := by
  intro n hn
  induction hn with
  | refl => exact Reach.refl
  | step _ hmem ih => exact Reach.step ih (hsub _ _ hmem)

/-- From a node whose children are all holes nothing further is reachable. -/
theorem reach_of_no_children {h : Heap} {q n : Nat}
    (hq : ∀ x, some x ∉ h.children q) (hn : Reach h q n) : n = q := by
  induction hn with
  | refl => rfl
  | step _ hmem ih =>
    subst ih
    exact absurd hmem (hq _)

/-- In a well-formed tree, a non-root reachable node has a reachable
parent recorded both in `up` and in the parent's children. -/
theorem up_spec {h : Heap} {r n : Nat} (hinv : Inv h r) (hn : Reach h r n)
    (hne : n ≠ r) : ∃ p, Reach h r p ∧ some n ∈ h.children p ∧ h.up n = some p := by
  rcases reach_cases hn with rfl | ⟨p, hp, hmem⟩
  · exact absurd rfl hne
  · exact ⟨p, hp, hmem, (hinv.parent_iff hn hp).mpr hmem⟩

/-- In a well-formed tree, a reachable node with no parent is the root. -/
theorem eq_root_of_up_none {h : Heap} {r n : Nat} (hinv : Inv h r)
    (hn : Reach h r n) (hup : h.up n = none) : n = r := by
  by_contra hne
  rcases up_spec hinv hn hne with ⟨p, _, _, hupn⟩
  rw [hup] at hupn
  exact Option.noConfusion hupn

/-- In a well-formed tree, `up` determines the unique reachable parent. -/
theorem parent_reachable {h : Heap} {r n p : Nat} (hinv : Inv h r)
    (hn : Reach h r n) (hup : h.up n = some p) :
    Reach h r p ∧ some n ∈ h.children p := by
  have hne : n ≠ r := by
    rintro rfl
    rw [hinv.root_up] at hup
    exact Option.noConfusion hup
  rcases up_spec hinv hn hne with ⟨q, hq, hmem, hupn⟩
  rw [hup] at hupn
  cases hupn
  exact ⟨hq, hmem⟩

/-- In a well-formed tree, no reachable node is reachable from one of its
own children: downward paths never return to their starting point. -/
theorem no_desc_cycle {h : Heap} {r : Nat} (hinv : Inv h r) :
    ∀ {p}, Reach h r p → ∀ {x}, some x ∈ h.children p → ¬ Reach h x p := by
  intro p hp
  induction hp with
  | refl =>
    intro x hx hcyc
    have hxr : Reach h r x := Reach.step Reach.refl hx
    cases reach_cases hcyc with
    | inl heq =>
      subst heq
      have := (hinv.parent_iff (Reach.refl) (Reach.refl)).mpr hx
      rw [hinv.root_up] at this
      exact Option.noConfusion this
    | inr hex =>
      rcases hex with ⟨q, hq, hmem⟩
      have hqr : Reach h r q := hxr.trans hq
      have := (hinv.parent_iff (Reach.refl) hqr).mpr hmem
      rw [hinv.root_up] at this
      exact Option.noConfusion this
  | @step pp p hpp hpmem ih =>
    intro x hx hcyc
    have hpr : Reach h r p := Reach.step hpp hpmem
    have hxr : Reach h r x := Reach.step hpr hx
    cases reach_cases hcyc with
    | inl heq =>
      subst heq
      have hppp : pp = p := hinv.once_across hpp hpr hpmem hx
      subst hppp
      exact ih hx Reach.refl
    | inr hex =>
      rcases hex with ⟨q, hq, hmem⟩
      have hqr : Reach h r q := hxr.trans hq
      have hqpp : q = pp := hinv.once_across hqr hpp hmem hpmem
      subst hqpp
      have hpx : Reach h p x := Reach.step Reach.refl hx
      exact ih hpmem (hpx.trans hq)

/-- In a well-formed tree, no reachable node lists itself as a child. -/
theorem not_self_child {h : Heap} {r p : Nat} (hinv : Inv h r)
    (hp : Reach h r p) (hmem : some p ∈ h.children p) : False :=
  no_desc_cycle hinv hp hmem Reach.refl

/-! Facts about `removeFirstSlot`, the effect of
`delete this.children[this.children.indexOf(child)]`. -/

/-- Hole-removal fails exactly when no slot holds the child. -/
theorem removeFirstSlot_eq_none_iff {l : List (Option Nat)} {c : Nat} :
    removeFirstSlot l c = none ↔ some c ∉ l := by
  induction l with
  | nil => simp [removeFirstSlot]
  | cons x xs ih =>
    simp only [removeFirstSlot]
    by_cases hx : x = some c
    · subst hx
      simp
    · rw [if_neg hx]
      simp only [Option.map_eq_none', ih, List.mem_cons]
      constructor
      · intro hn hm
        rcases hm with hm | hm
        · exact hx hm.symm
        · exact hn hm
      · intro hn hm
        exact hn (Or.inr hm)

/-- Successful hole-removal splits the array at the first slot holding the
child and replaces exactly that slot by a hole. -/
theorem removeFirstSlot_spec {l l2 : List (Option Nat)} {c : Nat}
    (hok : removeFirstSlot l c = some l2) :
    ∃ l₁ l₃, l = l₁ ++ some c :: l₃ ∧ some c ∉ l₁ ∧ l2 = l₁ ++ none :: l₃ := by
  induction l generalizing l2 with
  | nil => simp [removeFirstSlot] at hok
  | cons x xs ih =>
    simp only [removeFirstSlot] at hok
    by_cases hx : x = some c
    · subst hx
      rw [if_pos rfl] at hok
      cases hok
      exact ⟨[], xs, rfl, by simp, rfl⟩
    · rw [if_neg hx, Option.map_eq_some'] at hok
      rcases hok with ⟨ys, hys, hl2⟩
      rcases ih hys with ⟨l₁, l₃, hl, hnc, hys2⟩
      refine ⟨x :: l₁, l₃, by rw [hl]; rfl, ?_, by rw [← hl2, hys2]; rfl⟩
      simp only [List.mem_cons]
      rintro (hm | hm)
      · exact hx hm.symm
      · exact hnc hm

/-- Slots holding other nodes survive hole-removal. -/
theorem removeFirstSlot_mem_sub {l l2 : List (Option Nat)} {c x : Nat}
    (hok : removeFirstSlot l c = some l2) (hx : some x ∈ l2) : some x ∈ l := by
  rcases removeFirstSlot_spec hok with ⟨l₁, l₃, hl, -, hl2⟩
  subst hl hl2
  rcases List.mem_append.mp hx with hm | hm
  · exact List.mem_append_left _ hm
  · rcases List.mem_cons.mp hm with hm | hm
    · exact Option.noConfusion hm
    · exact List.mem_append_right _ (List.mem_cons_of_mem _ hm)

/-- Membership of a node other than the removed child is unchanged. -/
theorem removeFirstSlot_mem_iff {l l2 : List (Option Nat)} {c x : Nat}
    (hok : removeFirstSlot l c = some l2) (hx : x ≠ c) :
    some x ∈ l2 ↔ some x ∈ l := by
  rcases removeFirstSlot_spec hok with ⟨l₁, l₃, hl, -, hl2⟩
  subst hl hl2
  constructor
  · intro hm
    rcases List.mem_append.mp hm with hm | hm
    · exact List.mem_append_left _ hm
    · rcases List.mem_cons.mp hm with hm | hm
      · exact Option.noConfusion hm
      · exact List.mem_append_right _ (List.mem_cons_of_mem _ hm)
  · intro hm
    rcases List.mem_append.mp hm with hm | hm
    · exact List.mem_append_left _ hm
    · rcases List.mem_cons.mp hm with hm | hm
      · exact absurd (Option.some.inj hm) hx
      · exact List.mem_append_right _ (List.mem_cons_of_mem _ hm)

/-- Slot counts never increase under hole-removal. -/
theorem removeFirstSlot_count_le {l l2 : List (Option Nat)} {c x : Nat}
    (hok : removeFirstSlot l c = some l2) :
    List.count (some x) l2 ≤ List.count (some x) l := by
  rcases removeFirstSlot_spec hok with ⟨l₁, l₃, hl, -, hl2⟩
  subst hl hl2
  simp only [List.count_append, List.count_cons]
  by_cases hx : x = c
  · subst hx
    simp
  · have h1 : ((none : Option Nat) == some x) = false := by simp
    have h2 : ((some c : Option Nat) == some x) = false := by
      simp only [beq_eq_false_iff_ne, ne_eq, Option.some.injEq]
      exact fun he => hx he.symm
    simp [h1, h2]

/-- When the child occurred at most once, it is gone after hole-removal. -/
theorem removeFirstSlot_not_mem {l l2 : List (Option Nat)} {c : Nat}
    (hok : removeFirstSlot l c = some l2)
    (h1 : List.count (some c) l ≤ 1) : some c ∉ l2 := by
  rcases removeFirstSlot_spec hok with ⟨l₁, l₃, hl, -, hl2⟩
  subst hl hl2
  rw [List.count_append, List.count_cons] at h1
  simp only [beq_self_eq_true, if_pos] at h1
  have hc1 : List.count (some c) l₁ = 0 := by omega
  have hc3 : List.count (some c) l₃ = 0 := by omega
  intro hm
  rcases List.mem_append.mp hm with hm | hm
  · exact absurd (List.count_eq_zero.mp hc1) (by simp [hm])
  · rcases List.mem_cons.mp hm with hm | hm
    · exact Option.noConfusion hm
    · exact absurd (List.count_eq_zero.mp hc3) (by simp [hm])

/-- Hole-removal keeps the array length (`delete` leaves a hole). -/
theorem removeFirstSlot_length {l l2 : List (Option Nat)} {c : Nat}
    (hok : removeFirstSlot l c = some l2) : l2.length = l.length := by
  rcases removeFirstSlot_spec hok with ⟨l₁, l₃, hl, -, hl2⟩
  subst hl hl2
  simp

/-- Hole-removal drops exactly one present slot. -/
theorem removeFirstSlot_present {l l2 : List (Option Nat)} {c : Nat}
    (hok : removeFirstSlot l c = some l2) :
    (l2.filterMap id).length + 1 = (l.filterMap id).length := by
  rcases removeFirstSlot_spec hok with ⟨l₁, l₃, hl, -, hl2⟩
  subst hl hl2
  simp only [List.filterMap_append, List.length_append]
  simp [List.filterMap_cons]
  omega

/-! The `removeChild` operation: characterization and invariant preservation. -/

/-- Heap produced by a successful `removeChild`. -/
def removeChildHeap (h : Heap) (p c : Nat) (l2 : List (Option Nat)) : Heap :=
  { h with children := upd h.children p l2, up := upd h.up c none }

/-- Characterization of a successful `removeChild` run. -/
theorem removeChild_ok {h : Heap} {p c : Nat} (hmem : some c ∈ h.children p) :
    ∃ l2, removeFirstSlot (h.children p) c = some l2 ∧
      removeChild h p c = .ok (c, removeChildHeap h p c l2) := by
  cases hfs : removeFirstSlot (h.children p) c with
  | none => exact absurd hmem (removeFirstSlot_eq_none_iff.mp hfs)
  | some l2 => exact ⟨l2, rfl, by simp [removeChild, hfs, removeChildHeap]⟩

/-- Characterization of a throwing `removeChild` run: the error heap is
the unchanged input heap. -/
theorem removeChild_err {h : Heap} {p c : Nat} (hnmem : some c ∉ h.children p) :
    removeChild h p c = .error ("Error: child not found", h) := by
  rw [removeChild, removeFirstSlot_eq_none_iff.mpr hnmem]

/-- Invariant preservation for `removeChild` on a reachable parent; a
throw leaves the heap unchanged, so the result heap is well-formed in
every case. -/
theorem inv_removeChild {h : Heap} {r p c : Nat} (hinv : Inv h r)
    (hp : Reach h r p) : Inv (resHeap (removeChild h p c)) r := by
  cases hfs : removeFirstSlot (h.children p) c with
  | none =>
    have he : removeChild h p c = .error ("Error: child not found", h) :=
      removeChild_err (removeFirstSlot_eq_none_iff.mp hfs)
    rw [he]
    exact hinv
  | some l2 =>
    have hmemc : some c ∈ h.children p := by
      by_contra hnc
      rw [removeFirstSlot_eq_none_iff.mpr hnc] at hfs
      exact Option.noConfusion hfs
    have hres : resHeap (removeChild h p c) = removeChildHeap h p c l2 := by
      simp [removeChild, hfs, resHeap, removeChildHeap]
    rw [hres]
    have hcr : Reach h r c := Reach.step hp hmemc
    have hupc : h.up c = some p := (hinv.parent_iff hcr hp).mpr hmemc
    have hcnr : c ≠ r := by
      rintro rfl
      rw [hinv.root_up] at hupc
      exact Option.noConfusion hupc
    have hc_l2 : some c ∉ l2 := removeFirstSlot_not_mem hfs (hinv.once_within hp)
    have hch2 : ∀ q, (removeChildHeap h p c l2).children q =
        if q = p then l2 else h.children q := fun _ => rfl
    have hup2 : ∀ x, (removeChildHeap h p c l2).up x =
        if x = c then none else h.up x := fun _ => rfl
    have hsub : ∀ q x, some x ∈ (removeChildHeap h p c l2).children q →
        some x ∈ h.children q := by
      intro q x hx
      rw [hch2] at hx
      by_cases hq : q = p
      · subst hq
        rw [if_pos rfl] at hx
        exact removeFirstSlot_mem_sub hfs hx
      · rwa [if_neg hq] at hx
    have hRsub : ∀ {x}, Reach (removeChildHeap h p c l2) r x → Reach h r x :=
      fun hx => reach_mono hsub hx
    have hc2 : ¬ Reach (removeChildHeap h p c l2) r c := by
      intro hRc
      rcases reach_cases hRc with heq | ⟨q, hq2, hmem2⟩
      · exact hcnr heq
      · have hq : Reach h r q := hRsub hq2
        rw [hch2] at hmem2
        by_cases hqp : q = p
        · subst hqp
          rw [if_pos rfl] at hmem2
          exact hc_l2 hmem2
        · rw [if_neg hqp] at hmem2
          exact hqp (hinv.once_across hq hp hmem2 hmemc)
    refine ⟨?_, ?_, ?_, ?_, ?_, ?_⟩
    · rw [hup2, if_neg (fun he => hcnr he.symm)]
      exact hinv.root_up
    · intro n q hn2 hq2
      have hn := hRsub hn2
      have hq := hRsub hq2
      have hnc : n ≠ c := fun he => hc2 (he ▸ hn2)
      rw [hup2, if_neg hnc, hch2]
      by_cases hqp : q = p
      · subst hqp
        rw [if_pos rfl, removeFirstSlot_mem_iff hfs hnc]
        exact hinv.parent_iff hn hq
      · rw [if_neg hqp]
        exact hinv.parent_iff hn hq
    · intro n q q2 hq hq2 hm hm2
      exact hinv.once_across (hRsub hq) (hRsub hq2) (hsub _ _ hm) (hsub _ _ hm2)
    · intro n q hq2
      rw [hch2]
      by_cases hqp : q = p
      · subst hqp
        rw [if_pos rfl]
        exact le_trans (removeFirstSlot_count_le hfs) (hinv.once_within (hRsub hq2))
      · rw [if_neg hqp]
        exact hinv.once_within (hRsub hq2)
    · intro n hn2
      exact hinv.reach_lt_fresh (hRsub hn2)
    · intro n hn
      have hfr : (removeChildHeap h p c l2).fresh = h.fresh := rfl
      rw [hfr] at hn
      have hcf : c < h.fresh := hinv.reach_lt_fresh hcr
      have hpf : p < h.fresh := hinv.reach_lt_fresh hp
      constructor
      · rw [hup2, if_neg (by omega)]
        exact (hinv.unalloc hn).1
      · rw [hch2, if_neg (by omega)]
        exact (hinv.unalloc hn).2

/-! The `addChild` operation: reachable nodes after an attach, and
invariant preservation when the attached child is a detached well-formed
subtree disjoint from the tree. -/

/-- Children arrays after `addChildCore`. -/
theorem addChildCore_children (h : Heap) (p c : Nat) (nm : Option String)
    (d sup : Option ℚ) (q : Nat) :
    (addChildCore h p c nm d sup).2.children q =
      if q = p then h.children p ++ [some c] else h.children q := rfl

/-- Parent pointers after `addChildCore`. -/
theorem addChildCore_up (h : Heap) (p c : Nat) (nm : Option String)
    (d sup : Option ℚ) (x : Nat) :
    (addChildCore h p c nm d sup).2.up x =
      if x = c then some p else h.up x := rfl

/-- Nodes reachable after an attach: the old tree plus the subtree of the
attached child. -/
theorem reach_addChildCore {h : Heap} {r p c : Nat}
    (hp : Reach h r p) (hdisj : ∀ x, Reach h c x → ¬ Reach h r x)
    (nm : Option String) (d sup : Option ℚ) :
    ∀ {x}, Reach (addChildCore h p c nm d sup).2 r x ↔
      (Reach h r x ∨ Reach h c x) := by
  intro x
  constructor
  · intro hx
    induction hx with
    | refl => exact Or.inl Reach.refl
    | @step q y hq hmem ih =>
      rw [addChildCore_children] at hmem
      rcases ih with ihl | ihr
      · by_cases hqp : q = p
        · subst hqp
          rw [if_pos rfl] at hmem
          rcases List.mem_append.mp hmem with hm | hm
          · exact Or.inl (Reach.step ihl hm)
          · rcases List.mem_singleton.mp hm with hm
            cases Option.some.inj hm
            exact Or.inr Reach.refl
        · rw [if_neg hqp] at hmem
          exact Or.inl (Reach.step ihl hmem)
      · by_cases hqp : q = p
        · subst hqp
          exact absurd hp (hdisj _ ihr)
        · rw [if_neg hqp] at hmem
          exact Or.inr (Reach.step ihr hmem)
  · have hmono : ∀ q y, some y ∈ h.children q →
        some y ∈ (addChildCore h p c nm d sup).2.children q := by
      intro q y hy
      rw [addChildCore_children]
      by_cases hqp : q = p
      · subst hqp
        rw [if_pos rfl]
        exact List.mem_append_left _ hy
      · rwa [if_neg hqp]
    intro hx
    rcases hx with hl | hr
    · exact reach_mono hmono hl
    · have hrc : Reach (addChildCore h p c nm d sup).2 r c := by
        refine Reach.step (reach_mono hmono hp) ?_
        rw [addChildCore_children, if_pos rfl]
        exact List.mem_append_right _ (List.mem_singleton.mpr rfl)
      exact hrc.trans (reach_mono hmono hr)

/-- Invariant preservation for an attach: the appended child must head a
well-formed subtree whose nodes are disjoint from the tree (it is fresh
or was detached beforehand). -/
theorem inv_addChildCore {h : Heap} {r p c : Nat} (hinv : Inv h r)
    (hp : Reach h r p) (hcinv : Inv h c)
    (hdisj : ∀ x, Reach h c x → ¬ Reach h r x)
    (nm : Option String) (d sup : Option ℚ) :
    Inv (addChildCore h p c nm d sup).2 r := by
  have hiff : ∀ {x}, Reach (addChildCore h p c nm d sup).2 r x ↔
      (Reach h r x ∨ Reach h c x) := reach_addChildCore hp hdisj nm d sup
  have hcnotr : ¬ Reach h r c := hdisj c Reach.refl
  have hc_not_child : ∀ {q}, Reach h r q → some c ∉ h.children q := by
    intro q hq hm
    exact hcnotr (Reach.step hq hm)
  have hc_not_child_c : ∀ {q}, Reach h c q → some c ∉ h.children q := by
    intro q hq hm
    have := (hcinv.parent_iff Reach.refl hq).mpr hm
    rw [hcinv.root_up] at this
    exact Option.noConfusion this
  have hmem_split : ∀ q x, Reach (addChildCore h p c nm d sup).2 r q →
      some x ∈ (addChildCore h p c nm d sup).2.children q →
      (some x ∈ h.children q ∧ x ≠ c) ∨ (q = p ∧ x = c) := by
    intro q x hq' hm
    rw [addChildCore_children] at hm
    by_cases hqp : q = p
    · rw [if_pos hqp] at hm
      rcases List.mem_append.mp hm with hm2 | hm2
      · rw [hqp]
        refine Or.inl ⟨hm2, ?_⟩
        rintro rfl
        exact hc_not_child hp hm2
      · cases Option.some.inj (List.mem_singleton.mp hm2)
        exact Or.inr ⟨hqp, rfl⟩
    · rw [if_neg hqp] at hm
      refine Or.inl ⟨hm, ?_⟩
      rintro rfl
      rcases hiff.mp hq' with hql | hqr
      · exact hc_not_child hql hm
      · exact hc_not_child_c hqr hm
  refine ⟨?_, ?_, ?_, ?_, ?_, ?_⟩
  · have hrc : r ≠ c := by
      rintro rfl
      exact hcnotr Reach.refl
    rw [addChildCore_up, if_neg hrc]
    exact hinv.root_up
  · intro n q hn' hq'
    rw [addChildCore_up, addChildCore_children]
    by_cases hnc : n = c
    · subst hnc
      rw [if_pos rfl]
      by_cases hqp : q = p
      · subst hqp
        rw [if_pos rfl]
        simp
      · rw [if_neg hqp]
        constructor
        · intro he
          exact absurd (Option.some.inj he) (fun hpq => hqp hpq.symm)
        · intro hm
          rcases hiff.mp hq' with hql | hqr
          · exact absurd hm (hc_not_child hql)
          · exact absurd hm (hc_not_child_c hqr)
    · rw [if_neg hnc]
      rcases hiff.mp hn' with hnl | hnr
      · by_cases hqp : q = p
        · subst hqp
          rw [if_pos rfl]
          constructor
          · intro hup
            exact List.mem_append_left _ ((hinv.parent_iff hnl hp).mp hup)
          · intro hm
            rcases List.mem_append.mp hm with hm | hm
            · exact (hinv.parent_iff hnl hp).mpr hm
            · exact absurd (Option.some.inj (List.mem_singleton.mp hm)) hnc
        · rw [if_neg hqp]
          rcases hiff.mp hq' with hql | hqr
          · exact hinv.parent_iff hnl hql
          · constructor
            · intro hup
              have := (parent_reachable hinv hnl hup).1
              exact absurd this (hdisj _ hqr)
            · intro hm
              have : Reach h c n := Reach.step hqr hm
              exact absurd hnl (hdisj _ this)
      · by_cases hqp : q = p
        · subst hqp
          rw [if_pos rfl]
          constructor
          · intro hup
            rcases up_spec hcinv hnr hnc with ⟨q0, hq0, hmem0, hup0⟩
            rw [hup] at hup0
            cases Option.some.inj hup0
            exact absurd hp (hdisj _ hq0)
          · intro hm
            rcases List.mem_append.mp hm with hm | hm
            · exact absurd hnr (fun hcx => hdisj _ hcx (Reach.step hp hm))
            · exact absurd (Option.some.inj (List.mem_singleton.mp hm)) hnc
        · rw [if_neg hqp]
          rcases hiff.mp hq' with hql | hqr
          · constructor
            · intro hup
              rcases up_spec hcinv hnr hnc with ⟨q0, hq0, hmem0, hup0⟩
              rw [hup] at hup0
              cases Option.some.inj hup0
              exact absurd hql (hdisj _ hq0)
            · intro hm
              exact absurd hnr (fun hcx => hdisj _ hcx (Reach.step hql hm))
          · exact hcinv.parent_iff hnr hqr
  · intro n q q2 hq' hq2' hm hm2
    rcases hmem_split q n hq' hm with ⟨hmq, hnc⟩ | ⟨hqp, hnc⟩
    · rcases hmem_split q2 n hq2' hm2 with ⟨hmq2, -⟩ | ⟨-, hnc2⟩
      · rcases hiff.mp hq' with hql | hqr
        · rcases hiff.mp hq2' with hq2l | hq2r
          · exact hinv.once_across hql hq2l hmq hmq2
          · exact absurd (Reach.step hql hmq) (fun hrx => hdisj _ (Reach.step hq2r hmq2) hrx)
        · rcases hiff.mp hq2' with hq2l | hq2r
          · exact absurd (Reach.step hq2l hmq2) (fun hrx => hdisj _ (Reach.step hqr hmq) hrx)
          · exact hcinv.once_across hqr hq2r hmq hmq2
      · exact absurd hnc2 hnc
    · rcases hmem_split q2 n hq2' hm2 with ⟨-, hnc2⟩ | ⟨hq2p, -⟩
      · exact absurd hnc hnc2
      · rw [hqp, hq2p]
  · intro n q hq'
    rw [addChildCore_children]
    by_cases hqp : q = p
    · rw [if_pos hqp, List.count_append]
      by_cases hnc : n = c
      · have h0 : List.count (some n) (h.children p) = 0 := by
          rw [hnc]
          exact List.count_eq_zero.mpr (hc_not_child hp)
        have h1 : List.count (some n) [some c] ≤ 1 := by
          rw [List.count_singleton]
          split <;> omega
        omega
      · have h1 : List.count (some n) [some c] = 0 := by
          apply List.count_eq_zero.mpr
          simp only [List.mem_singleton, Option.some.injEq]
          exact fun he => hnc he
        rw [h1]
        have := hinv.once_within (n := n) hp
        omega
    · rw [if_neg hqp]
      rcases hiff.mp hq' with hql | hqr
      · exact hinv.once_within hql
      · exact hcinv.once_within hqr
  · intro n hn'
    rcases hiff.mp hn' with hnl | hnr
    · exact hinv.reach_lt_fresh hnl
    · exact hcinv.reach_lt_fresh hnr
  · intro n hn
    have hcf : c < h.fresh := hcinv.reach_lt_fresh Reach.refl
    have hpf : p < h.fresh := hinv.reach_lt_fresh hp
    have hfr : (addChildCore h p c nm d sup).2.fresh = h.fresh := rfl
    rw [hfr] at hn
    constructor
    · rw [addChildCore_up, if_neg (by omega)]
      exact (hinv.unalloc hn).1
    · rw [addChildCore_children, if_neg (by omega)]
      exact (hinv.unalloc hn).2

/-! Allocation, and the remaining simple mutators. -/

/-- Children arrays after allocation. -/
theorem allocNode_children (h : Heap) (q : Nat) :
    (allocNode h).2.children q = if q = h.fresh then [] else h.children q := rfl

/-- Parent pointers after allocation. -/
theorem allocNode_up (h : Heap) (x : Nat) :
    (allocNode h).2.up x = if x = h.fresh then none else h.up x := rfl

/-- Allocation does not change what is reachable from the root. -/
theorem reach_alloc {h : Heap} {r : Nat} (hinv : Inv h r) :
    ∀ {x}, Reach (allocNode h).2 r x ↔ Reach h r x := by
  have hmem : ∀ q y, some y ∈ h.children q ↔ some y ∈ (allocNode h).2.children q := by
    intro q y
    rw [allocNode_children]
    by_cases hq : q = h.fresh
    · rw [if_pos hq, hq, (hinv.unalloc le_rfl).2]
    · rw [if_neg hq]
  intro x
  exact ⟨reach_mono (fun q y hy => (hmem q y).mpr hy),
    reach_mono (fun q y hy => (hmem q y).mp hy)⟩

/-- Allocation preserves the invariant of the existing tree. -/
theorem inv_alloc {h : Heap} {r : Nat} (hinv : Inv h r) : Inv (allocNode h).2 r := by
  have hiff : ∀ {x}, Reach (allocNode h).2 r x ↔ Reach h r x := reach_alloc hinv
  refine ⟨?_, ?_, ?_, ?_, ?_, ?_⟩
  · rw [allocNode_up]
    by_cases hr : r = h.fresh
    · rw [if_pos hr]
    · rw [if_neg hr]
      exact hinv.root_up
  · intro n q hn' hq'
    have hn := hiff.mp hn'
    have hq := hiff.mp hq'
    rw [allocNode_up, if_neg (by have := hinv.reach_lt_fresh hn; omega),
      allocNode_children, if_neg (by have := hinv.reach_lt_fresh hq; omega)]
    exact hinv.parent_iff hn hq
  · intro n q q2 hq' hq2' hm hm2
    have hq := hiff.mp hq'
    have hq2 := hiff.mp hq2'
    rw [allocNode_children, if_neg (by have := hinv.reach_lt_fresh hq; omega)] at hm
    rw [allocNode_children, if_neg (by have := hinv.reach_lt_fresh hq2; omega)] at hm2
    exact hinv.once_across hq hq2 hm hm2
  · intro n q hq'
    have hq := hiff.mp hq'
    rw [allocNode_children, if_neg (by have := hinv.reach_lt_fresh hq; omega)]
    exact hinv.once_within hq
  · intro n hn'
    have := hinv.reach_lt_fresh (hiff.mp hn')
    have hf : (allocNode h).2.fresh = h.fresh + 1 := rfl
    omega
  · intro n hn
    have hf : (allocNode h).2.fresh = h.fresh + 1 := rfl
    rw [hf] at hn
    constructor
    · rw [allocNode_up, if_neg (by omega)]
      exact (hinv.unalloc (by omega)).1
    · rw [allocNode_children, if_neg (by omega)]
      exact (hinv.unalloc (by omega)).2

/-- The freshly allocated node is a well-formed singleton tree. -/
theorem inv_alloc_fresh {h : Heap} {r : Nat} (hinv : Inv h r) :
    Inv (allocNode h).2 h.fresh := by
  have hempty : (allocNode h).2.children h.fresh = [] := by
    rw [allocNode_children, if_pos rfl]
  have honly : ∀ {x}, Reach (allocNode h).2 h.fresh x → x = h.fresh := by
    intro x hx
    exact reach_of_no_children (by rw [hempty]; simp) hx
  refine ⟨?_, ?_, ?_, ?_, ?_, ?_⟩
  · rw [allocNode_up, if_pos rfl]
  · intro n q hn' hq'
    cases honly hn'
    cases honly hq'
    rw [allocNode_up, if_pos rfl, hempty]
    simp
  · intro n q q2 hq' hq2' hm hm2
    cases honly hq'
    cases honly hq2'
    rfl
  · intro n q hq'
    cases honly hq'
    rw [hempty]
    simp
  · intro n hn'
    cases honly hn'
    have hf : (allocNode h).2.fresh = h.fresh + 1 := rfl
    omega
  · intro n hn
    have hf : (allocNode h).2.fresh = h.fresh + 1 := rfl
    rw [hf] at hn
    constructor
    · rw [allocNode_up, if_neg (by omega)]
      exact (hinv.unalloc (by omega)).1
    · rw [allocNode_children, if_neg (by omega)]
      exact (hinv.unalloc (by omega)).2

/-- The freshly allocated node and the tree are disjoint. -/
theorem alloc_disjoint {h : Heap} {r : Nat} (hinv : Inv h r) :
    ∀ x, Reach (allocNode h).2 h.fresh x → ¬ Reach (allocNode h).2 r x := by
  intro x hx hrx
  have hempty : (allocNode h).2.children h.fresh = [] := by
    rw [allocNode_children, if_pos rfl]
  have hxf : x = h.fresh :=
    reach_of_no_children (by rw [hempty]; simp) hx
  subst hxf
  have := hinv.reach_lt_fresh ((reach_alloc hinv).mp hrx)
  omega

/-- Invariant preservation for `addChild` with an explicit child: the
child must head a well-formed subtree disjoint from the tree. -/
theorem inv_addChild_detached {h : Heap} {r p c : Nat} (hinv : Inv h r)
    (hp : Reach h r p) (hcinv : Inv h c)
    (hdisj : ∀ x, Reach h c x → ¬ Reach h r x)
    (nm : Option String) (d sup : Option ℚ) :
    Inv (addChild h p (some c) nm d sup).2 r :=
  inv_addChildCore hinv hp hcinv hdisj nm d sup

/-- Invariant preservation for `addChild` with no child: a fresh default
node is allocated and attached. -/
theorem inv_addChild_fresh {h : Heap} {r p : Nat} (hinv : Inv h r)
    (hp : Reach h r p) (nm : Option String) (d sup : Option ℚ) :
    Inv (addChild h p none nm d sup).2 r := by
  show Inv (addChildCore (allocNode h).2 p (allocNode h).1 nm d sup).2 r
  exact inv_addChildCore (inv_alloc hinv) ((reach_alloc hinv).mpr hp)
    (inv_alloc_fresh hinv) (alloc_disjoint hinv) nm d sup

/-- Nulling an already null parent pointer preserves the invariant. -/
theorem inv_up_reset {h : Heap} {r n : Nat} (hinv : Inv h r)
    (hup : h.up n = none) : Inv { h with up := upd h.up n none } r := by
  have hsub1 : ∀ q y, some y ∈ h.children q →
      some y ∈ ({ h with up := upd h.up n none } : Heap).children q :=
    fun _ _ hy => hy
  have hsub2 : ∀ q y, some y ∈ ({ h with up := upd h.up n none } : Heap).children q →
      some y ∈ h.children q :=
    fun _ _ hy => hy
  have hiff : ∀ {x}, Reach { h with up := upd h.up n none } r x ↔ Reach h r x := by
    intro x
    exact ⟨reach_mono hsub2, reach_mono hsub1⟩
  have hupx : ∀ x, ({ h with up := upd h.up n none } : Heap).up x =
      if x = n then none else h.up x := fun _ => rfl
  refine ⟨?_, ?_, ?_, ?_, ?_, ?_⟩
  · rw [hupx]
    by_cases hr : r = n
    · rw [if_pos hr]
    · rw [if_neg hr]
      exact hinv.root_up
  · intro m q hm' hq'
    have hm := hiff.mp hm'
    have hq := hiff.mp hq'
    rw [hupx]
    by_cases hmn : m = n
    · rw [if_pos hmn]
      subst hmn
      rw [← hup]
      exact hinv.parent_iff hm hq
    · rw [if_neg hmn]
      exact hinv.parent_iff hm hq
  · intro m q q2 hq' hq2' hmm hmm2
    exact hinv.once_across (hiff.mp hq') (hiff.mp hq2') hmm hmm2
  · intro m q hq'
    exact hinv.once_within (hiff.mp hq')
  · intro m hm'
    exact hinv.reach_lt_fresh (hiff.mp hm')
  · intro m hm
    refine ⟨?_, (hinv.unalloc hm).2⟩
    rw [hupx]
    by_cases hmn : m = n
    · rw [if_pos hmn]
    · rw [if_neg hmn]
      exact (hinv.unalloc hm).1

/-- Invariant preservation for `detach` on a reachable node. -/
theorem inv_detach {h : Heap} {r n : Nat} (hinv : Inv h r)
    (hn : Reach h r n) : Inv (resHeap (detach h n)) r := by
  cases hup : h.up n with
  | none =>
    have hres : resHeap (detach h n) = { h with up := upd h.up n none } := by
      simp [detach, hup, resHeap]
    rw [hres]
    exact inv_up_reset hinv hup
  | some p =>
    have hpr := parent_reachable hinv hn hup
    rcases removeChild_ok hpr.2 with ⟨l2, hfs, hok⟩
    have hres : resHeap (detach h n) =
        { removeChildHeap h p n l2 with
            up := upd (removeChildHeap h p n l2).up n none } := by
      simp [detach, hup, hok, resHeap]
    rw [hres]
    have hinv1 : Inv (removeChildHeap h p n l2) r := by
      have := inv_removeChild (c := n) hinv hpr.1
      rwa [hok] at this
    have hup1 : (removeChildHeap h p n l2).up n = none := by
      show upd h.up n none n = none
      rw [upd, if_pos rfl]
    exact inv_up_reset hinv1 hup1

/-- Invariant preservation for `addSister` with an explicit sister. -/
theorem inv_addSister_detached {h : Heap} {r s c : Nat} (hinv : Inv h r)
    (hs : Reach h r s) (hcinv : Inv h c)
    (hdisj : ∀ x, Reach h c x → ¬ Reach h r x)
    (nm : Option String) (d : Option ℚ) :
    Inv (resHeap (addSister h s (some c) nm d)) r := by
  cases hup : h.up s with
  | none =>
    have hres : resHeap (addSister h s (some c) nm d) = h := by
      simp [addSister, hup, resHeap]
    rw [hres]
    exact hinv
  | some p =>
    have hpr := parent_reachable hinv hs hup
    have hres : resHeap (addSister h s (some c) nm d) =
        (addChild h p (some c) nm d none).2 := by
      simp [addSister, hup, resHeap]
    rw [hres]
    exact inv_addChild_detached hinv hpr.1 hcinv hdisj nm d none

/-- Invariant preservation for `addSister` with no sister argument. -/
theorem inv_addSister_fresh {h : Heap} {r s : Nat} (hinv : Inv h r)
    (hs : Reach h r s) (nm : Option String) (d : Option ℚ) :
    Inv (resHeap (addSister h s none nm d)) r := by
  cases hup : h.up s with
  | none =>
    have hres : resHeap (addSister h s none nm d) = h := by
      simp [addSister, hup, resHeap]
    rw [hres]
    exact hinv
  | some p =>
    have hpr := parent_reachable hinv hs hup
    have hres : resHeap (addSister h s none nm d) =
        (addChild h p none nm d none).2 := by
      simp [addSister, hup, resHeap]
    rw [hres]
    exact inv_addChild_fresh hinv hpr.1 nm d none

/-- Invariant preservation for `remove_sister`. -/
theorem inv_remove_sister {h : Heap} {r s : Nat} (hinv : Inv h r)
    (hs : Reach h r s) (sister : Option Nat) :
    Inv (resHeap (remove_sister h s sister)) r := by
  cases hup : h.up s with
  | none =>
    have hres : resHeap (remove_sister h s sister) = h := by
      simp [remove_sister, hup, resHeap]
    rw [hres]
    exact hinv
  | some p =>
    have hpr := parent_reachable hinv hs hup
    by_cases hlen : (getSisters h s).length > 0
    · cases sister with
      | none =>
        have hres : resHeap (remove_sister h s none) = h := by
          simp [remove_sister, hup, resHeap, if_pos hlen]
        rw [hres]
        exact hinv
      | some sis =>
        have hres : resHeap (remove_sister h s (some sis)) =
            resHeap (removeChild h p sis) := by
          simp only [remove_sister, hup, if_pos hlen]
          cases hrc : removeChild h p sis with
          | error e => simp [resHeap]
          | ok v => simp [resHeap]
        rw [hres]
        exact inv_removeChild hinv hpr.1
    · have hres : resHeap (remove_sister h s sister) = h := by
        simp [remove_sister, hup, resHeap, if_neg hlen]
      rw [hres]
      exact hinv

/-! The `delete` operation: characterization of its pieces and invariant
preservation. -/

/-- Invariance of `Inv` under changes to the structurally irrelevant
fields (`name`, `dist`, `support`). -/
theorem inv_copy {h h2 : Heap} {r : Nat} (hinv : Inv h r) (hup : h2.up = h.up)
    (hch : h2.children = h.children) (hfr : h2.fresh = h.fresh) : Inv h2 r := by
  have hiff : ∀ {x}, Reach h2 r x ↔ Reach h r x := by
    intro x
    constructor
    · exact reach_mono (fun q y hy => by rw [← hch]; exact hy)
    · exact reach_mono (fun q y hy => by rw [hch]; exact hy)
  refine ⟨?_, ?_, ?_, ?_, ?_, ?_⟩
  · rw [hup]
    exact hinv.root_up
  · intro n p hn hp
    rw [hup, hch]
    exact hinv.parent_iff (hiff.mp hn) (hiff.mp hp)
  · intro n p q hp hq hm hm2
    rw [hch] at hm hm2
    exact hinv.once_across (hiff.mp hp) (hiff.mp hq) hm hm2
  · intro n p hp
    rw [hch]
    exact hinv.once_within (hiff.mp hp)
  · intro n hn
    rw [hfr]
    exact hinv.reach_lt_fresh (hiff.mp hn)
  · intro n hn
    rw [hfr] at hn
    rw [hup, hch]
    exact hinv.unalloc hn

/-- Reachability is unchanged when only structurally irrelevant fields
differ. -/
theorem reach_copy {h h2 : Heap} {r : Nat} (hch : h2.children = h.children) :
    ∀ {x}, Reach h2 r x ↔ Reach h r x := by
  intro x
  constructor
  · exact reach_mono (fun q y hy => by rw [← hch]; exact hy)
  · exact reach_mono (fun q y hy => by rw [hch]; exact hy)

/-- A successful branch-length transfer changes only `dist`. -/
theorem distTransfer_structure {h : Heap} {n parent : Nat} {ps : Bool} {h1 : Heap}
    (hok : distTransfer h n parent ps = .ok h1) :
    h1.up = h.up ∧ h1.children = h.children ∧ h1.fresh = h.fresh := by
  unfold distTransfer at hok
  split at hok
  · split at hok
    · split at hok
      · cases hok
        exact ⟨rfl, rfl, rfl⟩
      · cases hok
    · split at hok
      · cases hok
        exact ⟨rfl, rfl, rfl⟩
      · cases hok
        exact ⟨rfl, rfl, rfl⟩
  · cases hok
    exact ⟨rfl, rfl, rfl⟩

/-- A throwing branch-length transfer carries the unmutated heap. -/
theorem distTransfer_err {h : Heap} {n parent : Nat} {ps : Bool} {e : String × Heap}
    (herr : distTransfer h n parent ps = .error e) : e.2 = h := by
  unfold distTransfer at herr
  split at herr
  · split at herr
    · split at herr
      · cases herr
      · cases herr
        rfl
    · split at herr
      · cases herr
      · cases herr
  · cases herr

/-- Children arrays after the reattachment fold: only the parent's array
changes, receiving the pushed children at its end. -/
theorem fold_attach_children (parent : Nat) :
    ∀ (ks : List Nat) (h1 : Heap) (q : Nat),
      ((ks.foldl (fun hh c => (addChildCore hh parent c none none none).2) h1).children q)
        = if q = parent then h1.children parent ++ ks.map some else h1.children q := by
  intro ks
  induction ks with
  | nil =>
    intro h1 q
    by_cases hq : q = parent
    · rw [if_pos hq, hq]
      simp
    · rw [if_neg hq]
      rfl
  | cons c ks ih =>
    intro h1 q
    show ((ks.foldl _ (addChildCore h1 parent c none none none).2).children q) = _
    rw [ih]
    by_cases hq : q = parent
    · rw [if_pos hq, if_pos hq, addChildCore_children, if_pos rfl]
      simp
    · rw [if_neg hq, if_neg hq, addChildCore_children, if_neg hq]

/-- Parent pointers after the reattachment fold: every pushed child now
points at the parent. -/
theorem fold_attach_up (parent : Nat) :
    ∀ (ks : List Nat) (h1 : Heap) (x : Nat),
      ((ks.foldl (fun hh c => (addChildCore hh parent c none none none).2) h1).up x)
        = if x ∈ ks then some parent else h1.up x := by
  intro ks
  induction ks with
  | nil =>
    intro h1 x
    rw [if_neg (List.not_mem_nil x)]
    rfl
  | cons c ks ih =>
    intro h1 x
    show ((ks.foldl _ (addChildCore h1 parent c none none none).2).up x) = _
    rw [ih]
    by_cases hks : x ∈ ks
    · rw [if_pos hks, if_pos (List.mem_cons_of_mem _ hks)]
    · rw [if_neg hks, addChildCore_up]
      by_cases hxc : x = c
      · rw [if_pos hxc, if_pos (by rw [hxc]; exact List.mem_cons_self c ks)]
      · rw [if_neg hxc, if_neg (by
          simp only [List.mem_cons]
          rintro (he | he)
          · exact hxc he
          · exact hks he)]

/-- The reattachment fold does not allocate. -/
theorem fold_attach_fresh (parent : Nat) :
    ∀ (ks : List Nat) (h1 : Heap),
      ((ks.foldl (fun hh c => (addChildCore hh parent c none none none).2) h1).fresh)
        = h1.fresh := by
  intro ks
  induction ks with
  | nil => intro h1; rfl
  | cons c ks ih =>
    intro h1
    show ((ks.foldl _ (addChildCore h1 parent c none none none).2).fresh) = _
    rw [ih]
    rfl

/-- The reattachment fold does not change any branch length
(`addChild` is called without a dist argument). -/
theorem fold_attach_dist (parent : Nat) :
    ∀ (ks : List Nat) (h1 : Heap) (x : Nat),
      ((ks.foldl (fun hh c => (addChildCore hh parent c none none none).2) h1).dist x)
        = h1.dist x := by
  intro ks
  induction ks with
  | nil => intro h1 x; rfl
  | cons c ks ih =>
    intro h1 x
    show ((ks.foldl _ (addChildCore h1 parent c none none none).2).dist x) = _
    rw [ih]
    show upd h1.dist c (truthyNum none (h1.dist c)) x = h1.dist x
    rw [upd]
    by_cases hxc : x = c
    · rw [if_pos hxc, hxc]
      rfl
    · rw [if_neg hxc]

/-- Counting a value among the present elements equals counting its
`some` among the slots. -/
theorem count_filterMap_id (m : Nat) (l : List (Option Nat)) :
    List.count m (l.filterMap id) = List.count (some m) l := by
  induction l with
  | nil => rfl
  | cons x xs ih =>
    cases x with
    | none =>
      have h0 : List.filterMap id ((none : Option Nat) :: xs) = List.filterMap id xs := by
        simp
      rw [h0, List.count_cons, ih]
      simp
    | some y =>
      have h0 : List.filterMap id (some y :: xs) = y :: List.filterMap id xs := by
        simp
      rw [h0, List.count_cons, List.count_cons, ih]
      by_cases hy : y = m
      · subst hy
        simp
      · have h1 : (y == m) = false := by simp [hy]
        have h2 : ((some y : Option Nat) == some m) = false := by simp [hy]
        rw [h1, h2]

/-- Count of a node among `some`-wrapped slots. -/
theorem count_map_some (m : Nat) (K : List Nat) :
    List.count (some m) (K.map some) = List.count m K := by
  induction K with
  | nil => rfl
  | cons k K ih =>
    rw [List.map_cons, List.count_cons, List.count_cons, ih]
    by_cases hk : k = m
    · subst hk
      simp
    · have h1 : (k == m) = false := by simp [hk]
      have h2 : ((some k : Option Nat) == some m) = false := by simp [hk]
      rw [h1, h2]

/-- Heap after the splice of `delete`: children reattached to the parent
and the node's slot in the parent holed out. -/
def spliceHeap (h1 : Heap) (n parent : Nat) (l2 : List (Option Nat)) : Heap :=
  removeChildHeap (reattachChildren h1 n parent) parent n l2

/-- Facts established about one splice of `delete`: the `removeChild`
call succeeds, the result is well-formed, the parent stays reachable, the
node is detached and gone from every reachable children array, its
present children hang off the parent, branch lengths are untouched by the
reattachment, and the parent's array grows by the number of reattached
children (the holed slot keeps the length). -/
structure SpliceFacts (h : Heap) (r n parent : Nat) (h1 : Heap)
    (l2 : List (Option Nat)) : Prop where
  ok : removeChild (reattachChildren h1 n parent) parent n =
    .ok (n, spliceHeap h1 n parent l2)
  inv : Inv (spliceHeap h1 n parent l2) r
  parent_reach : Reach (spliceHeap h1 n parent l2) r parent
  up_n : (spliceHeap h1 n parent l2).up n = none
  gone : ∀ q, Reach (spliceHeap h1 n parent l2) r q →
    some n ∉ (spliceHeap h1 n parent l2).children q
  reattached : ∀ k, k ∈ (h1.children n).filterMap id →
    (spliceHeap h1 n parent l2).up k = some parent ∧
    some k ∈ (spliceHeap h1 n parent l2).children parent
  dist_eq : ∀ x, (spliceHeap h1 n parent l2).dist x = h1.dist x
  len_parent : ((spliceHeap h1 n parent l2).children parent).length =
    (h.children parent).length + ((h1.children n).filterMap id).length
  children_other : ∀ q, q ≠ parent →
    (spliceHeap h1 n parent l2).children q = h.children q
  fresh_eq : (spliceHeap h1 n parent l2).fresh = h.fresh
  up_other : ∀ x, x ≠ n → x ∉ (h1.children n).filterMap id →
    (spliceHeap h1 n parent l2).up x = h.up x
  mem_parent : ∀ y, some y ∈ (spliceHeap h1 n parent l2).children parent →
    some y ∈ h.children parent ∨ y ∈ (h1.children n).filterMap id
  reach_sub : ∀ q, Reach (spliceHeap h1 n parent l2) r q → Reach h r q

/-- One splice of `delete` on a reachable non-root node of a well-formed
tree establishes all of `SpliceFacts`. -/
theorem splice_main {h : Heap} {r n parent : Nat} {ps : Bool} {h1 : Heap}
    (hinv : Inv h r) (hn : Reach h r n) (hup : h.up n = some parent)
    (hdt : distTransfer h n parent ps = .ok h1) :
    ∃ l2, SpliceFacts h r n parent h1 l2 := by
  obtain ⟨hst1, hst2, hst3⟩ := distTransfer_structure hdt
  have hinv1 : Inv h1 r := inv_copy hinv hst1 hst2 hst3
  have hpar := parent_reachable hinv hn hup
  have hKdef : (h1.children n).filterMap id = (h.children n).filterMap id := by
    rw [hst2]
  have hKmem : ∀ k ∈ (h1.children n).filterMap id, some k ∈ h.children n := by
    intro k hk
    rw [hKdef] at hk
    rcases List.mem_filterMap.mp hk with ⟨o, ho, hok⟩
    cases hok
    exact ho
  have hKreach : ∀ k ∈ (h1.children n).filterMap id, Reach h r k :=
    fun k hk => Reach.step hn (hKmem k hk)
  have hnK : n ∉ (h1.children n).filterMap id :=
    fun hkn => not_self_child hinv hn (hKmem _ hkn)
  have hparK : parent ∉ (h1.children n).filterMap id :=
    fun hp => no_desc_cycle hinv hpar.1 hpar.2 (Reach.step Reach.refl (hKmem _ hp))
  have hnparent : n ≠ parent := by
    rintro rfl
    exact not_self_child hinv hn hpar.2
  have hnr : n ≠ r := by
    rintro rfl
    rw [hinv.root_up] at hup
    exact Option.noConfusion hup
  have hch2 : ∀ q, (reattachChildren h1 n parent).children q =
      if q = parent then h.children parent ++ ((h1.children n).filterMap id).map some
      else h.children q := by
    intro q
    unfold reattachChildren
    rw [fold_attach_children, hst2]
  have hup2 : ∀ x, (reattachChildren h1 n parent).up x =
      if x ∈ (h1.children n).filterMap id then some parent else h.up x := by
    intro x
    unfold reattachChildren
    rw [fold_attach_up, hst1]
  have hfr2 : (reattachChildren h1 n parent).fresh = h.fresh := by
    unfold reattachChildren
    rw [fold_attach_fresh, hst3]
  have hdist2 : ∀ x, (reattachChildren h1 n parent).dist x = h1.dist x := by
    intro x
    unfold reattachChildren
    rw [fold_attach_dist]
  have hmem2 : some n ∈ (reattachChildren h1 n parent).children parent := by
    rw [hch2, if_pos rfl]
    exact List.mem_append_left _ hpar.2
  have hcount2 : List.count (some n) ((reattachChildren h1 n parent).children parent) ≤ 1 := by
    rw [hch2, if_pos rfl, List.count_append, count_map_some]
    have h0 : List.count n ((h1.children n).filterMap id) = 0 :=
      List.count_eq_zero.mpr hnK
    have h1c := hinv.once_within (n := n) hpar.1
    omega
  rcases removeChild_ok hmem2 with ⟨l2, hfs, hok⟩
  refine ⟨l2, ?_⟩
  have hch3 : ∀ q, (spliceHeap h1 n parent l2).children q =
      if q = parent then l2 else h.children q := by
    intro q
    show upd (reattachChildren h1 n parent).children parent l2 q = _
    rw [upd]
    by_cases hq : q = parent
    · rw [if_pos hq, if_pos hq]
    · rw [if_neg hq, if_neg hq, hch2, if_neg hq]
  have hup3 : ∀ x, (spliceHeap h1 n parent l2).up x =
      if x = n then none
      else if x ∈ (h1.children n).filterMap id then some parent else h.up x := by
    intro x
    show upd (reattachChildren h1 n parent).up n none x = _
    rw [upd]
    by_cases hx : x = n
    · rw [if_pos hx, if_pos hx]
    · rw [if_neg hx, if_neg hx, hup2]
  have hl2_not : some n ∉ l2 := removeFirstSlot_not_mem hfs hcount2
  have hl2_mem : ∀ {y : Nat}, y ≠ n →
      (some y ∈ l2 ↔ some y ∈ (reattachChildren h1 n parent).children parent) :=
    fun hy => removeFirstSlot_mem_iff hfs hy
  have hfr3 : (spliceHeap h1 n parent l2).fresh = h.fresh := hfr2
  have hdist3 : ∀ x, (spliceHeap h1 n parent l2).dist x = h1.dist x := hdist2
  have hreach3 : ∀ {x}, Reach (spliceHeap h1 n parent l2) r x →
      Reach h r x ∧ x ≠ n := by
    intro x hx
    induction hx with
    | refl => exact ⟨Reach.refl, fun he => hnr he.symm⟩
    | @step q y hq hmem ih =>
      rw [hch3] at hmem
      by_cases hqp : q = parent
      · rw [if_pos hqp] at hmem
        have hyn : y ≠ n := by
          rintro rfl
          exact hl2_not hmem
        have hmem2' : some y ∈ (reattachChildren h1 n parent).children parent :=
          (hl2_mem hyn).mp hmem
        rw [hch2, if_pos rfl] at hmem2'
        rcases List.mem_append.mp hmem2' with hm | hm
        · exact ⟨Reach.step (hqp ▸ ih.1) hm, hyn⟩
        · rcases List.mem_map.mp hm with ⟨k, hk, hke⟩
          cases Option.some.inj hke
          exact ⟨Reach.step hn (hKmem _ hk), hyn⟩
      · rw [if_neg hqp] at hmem
        refine ⟨Reach.step ih.1 hmem, ?_⟩
        rintro rfl
        exact hqp (hinv.once_across ih.1 hpar.1 hmem hpar.2)
  have hOcc : ∀ q y, Reach (spliceHeap h1 n parent l2) r q →
      some y ∈ (spliceHeap h1 n parent l2).children q →
      (some y ∈ h.children q ∧ y ∉ (h1.children n).filterMap id) ∨
      (q = parent ∧ y ∈ (h1.children n).filterMap id) := by
    intro q y hq3 hmem
    obtain ⟨hq, hqn⟩ := hreach3 hq3
    rw [hch3] at hmem
    by_cases hqp : q = parent
    · rw [if_pos hqp] at hmem
      have hmem2' : some y ∈ (reattachChildren h1 n parent).children parent :=
        removeFirstSlot_mem_sub hfs hmem
      rw [hch2, if_pos rfl] at hmem2'
      rcases List.mem_append.mp hmem2' with hm | hm
      · refine Or.inl ⟨hqp ▸ hm, ?_⟩
        intro hyK
        exact hnparent (hinv.once_across hn hpar.1 (hKmem _ hyK) hm)
      · rcases List.mem_map.mp hm with ⟨k, hk, hke⟩
        cases Option.some.inj hke
        exact Or.inr ⟨hqp, hk⟩
    · rw [if_neg hqp] at hmem
      refine Or.inl ⟨hmem, ?_⟩
      intro hyK
      exact hqn (hinv.once_across hq hn hmem (hKmem _ hyK))
  have hInv3 : Inv (spliceHeap h1 n parent l2) r := by
    refine ⟨?_, ?_, ?_, ?_, ?_, ?_⟩
    · rw [hup3, if_neg (fun he => hnr he.symm)]
      rw [if_neg (fun hrK => by
        have := (hinv.parent_iff Reach.refl hn).mpr (hKmem _ hrK)
        rw [hinv.root_up] at this
        exact Option.noConfusion this)]
      exact hinv.root_up
    · intro m q hm3 hq3
      obtain ⟨hm, hmn⟩ := hreach3 hm3
      obtain ⟨hq, hqn⟩ := hreach3 hq3
      rw [hup3, if_neg hmn, hch3]
      by_cases hmK : m ∈ (h1.children n).filterMap id
      · rw [if_pos hmK]
        by_cases hqp : q = parent
        · rw [if_pos hqp]
          constructor
          · intro _
            rw [hl2_mem hmn, hch2, if_pos rfl]
            exact List.mem_append_right _ (List.mem_map.mpr ⟨m, hmK, rfl⟩)
          · intro _
            rw [hqp]
        · rw [if_neg hqp]
          constructor
          · intro he
            exact absurd (Option.some.inj he).symm hqp
          · intro hmem
            exact absurd (hinv.once_across hq hn hmem (hKmem _ hmK)) hqn
      · rw [if_neg hmK]
        by_cases hqp : q = parent
        · rw [if_pos hqp, hl2_mem hmn, hch2, if_pos rfl]
          constructor
          · intro hupm
            refine List.mem_append_left _ ?_
            rw [← hqp]
            exact (hinv.parent_iff hm hq).mp hupm
          · intro hmem
            rcases List.mem_append.mp hmem with hmm | hmm
            · rw [hqp]
              exact (hinv.parent_iff hm hpar.1).mpr hmm
            · rcases List.mem_map.mp hmm with ⟨k, hk, hke⟩
              cases Option.some.inj hke
              exact absurd hk hmK
        · rw [if_neg hqp]
          exact hinv.parent_iff hm hq
    · intro m q q2 hq3 hq23 hmm hmm2
      rcases hOcc q m hq3 hmm with ⟨hm1, hk1⟩ | ⟨he1, hk1⟩
      · rcases hOcc q2 m hq23 hmm2 with ⟨hm2, -⟩ | ⟨-, hk2⟩
        · exact hinv.once_across (hreach3 hq3).1 (hreach3 hq23).1 hm1 hm2
        · exact absurd hk2 hk1
      · rcases hOcc q2 m hq23 hmm2 with ⟨-, hk2⟩ | ⟨he2, -⟩
        · exact absurd hk1 hk2
        · rw [he1, he2]
    · intro m q hq3
      rw [hch3]
      by_cases hqp : q = parent
      · rw [if_pos hqp]
        refine le_trans (removeFirstSlot_count_le hfs) ?_
        rw [hch2, if_pos rfl, List.count_append, count_map_some, hKdef,
          count_filterMap_id]
        by_cases hmp : some m ∈ h.children parent
        · have hmK : List.count (some m) (h.children n) = 0 := by
            apply List.count_eq_zero.mpr
            intro hmk
            exact hnparent (hinv.once_across hn hpar.1 hmk hmp)
          have := hinv.once_within (n := m) hpar.1
          omega
        · have h0 : List.count (some m) (h.children parent) = 0 :=
            List.count_eq_zero.mpr hmp
          have := hinv.once_within (n := m) hn
          omega
      · rw [if_neg hqp]
        exact hinv.once_within (hreach3 hq3).1
    · intro m hm3
      rw [hfr3]
      exact hinv.reach_lt_fresh (hreach3 hm3).1
    · intro m hm
      rw [hfr3] at hm
      have hnlt : n < h.fresh := hinv.reach_lt_fresh hn
      have hplt : parent < h.fresh := hinv.reach_lt_fresh hpar.1
      constructor
      · rw [hup3, if_neg (by omega), if_neg (fun hmK => by
          have := hinv.reach_lt_fresh (hKreach _ hmK)
          omega)]
        exact (hinv.unalloc hm).1
      · rw [hch3, if_neg (by omega)]
        exact (hinv.unalloc hm).2
  have hsplit : ∀ x, Reach h r x →
      Reach (spliceHeap h1 n parent l2) r x ∨ Reach (spliceHeap h1 n parent l2) n x := by
    intro x hx
    induction hx with
    | refl => exact Or.inl Reach.refl
    | @step q y hq hmem ih =>
      have hedge : y ≠ n → some y ∈ (spliceHeap h1 n parent l2).children q := by
        intro hyn
        rw [hch3]
        by_cases hqp : q = parent
        · rw [if_pos hqp, hl2_mem hyn, hch2, if_pos rfl]
          exact List.mem_append_left _ (hqp ▸ hmem)
        · rw [if_neg hqp]
          exact hmem
      by_cases hyn : y = n
      · subst hyn
        exact Or.inr Reach.refl
      · rcases ih with ihl | ihr
        · exact Or.inl (Reach.step ihl (hedge hyn))
        · exact Or.inr (Reach.step ihr (hedge hyn))
  have hfromn : ∀ z, Reach (spliceHeap h1 n parent l2) n z →
      Reach h n z ∨ Reach h n parent := by
    intro z hz
    induction hz with
    | refl => exact Or.inl Reach.refl
    | @step q y hq hmem ih =>
      rcases ih with ihl | ihr
      · by_cases hqp : q = parent
        · exact Or.inr (hqp ▸ ihl)
        · rw [hch3, if_neg hqp] at hmem
          exact Or.inl (Reach.step ihl hmem)
      · exact Or.inr ihr
  have hR3p : Reach (spliceHeap h1 n parent l2) r parent := by
    rcases hsplit parent hpar.1 with hl | hr
    · exact hl
    · rcases hfromn parent hr with hc | hc
      · exact absurd hc (no_desc_cycle hinv hpar.1 hpar.2)
      · exact absurd hc (no_desc_cycle hinv hpar.1 hpar.2)
  refine ⟨hok, hInv3, hR3p, ?_, ?_, ?_, hdist3, ?_, ?_, hfr3, ?_, ?_, ?_⟩
  · rw [hup3, if_pos rfl]
  · intro q hq3 hmem
    rcases hOcc q n hq3 hmem with ⟨-, -⟩ | ⟨-, hk⟩
    · rw [hch3] at hmem
      by_cases hqp : q = parent
      · rw [if_pos hqp] at hmem
        exact hl2_not hmem
      · rw [if_neg hqp] at hmem
        exact hqp (hinv.once_across (hreach3 hq3).1 hpar.1 hmem hpar.2)
    · exact hnK hk
  · intro k hk
    have hkn : k ≠ n := fun he => hnK (he ▸ hk)
    constructor
    · rw [hup3, if_neg hkn, if_pos hk]
    · rw [hch3, if_pos rfl, hl2_mem hkn, hch2, if_pos rfl]
      exact List.mem_append_right _ (List.mem_map.mpr ⟨k, hk, rfl⟩)
  · rw [hch3, if_pos rfl, removeFirstSlot_length hfs, hch2, if_pos rfl]
    rw [List.length_append, List.length_map]
  · intro q hq
    rw [hch3, if_neg hq]
  · intro x hxn hxK
    rw [hup3, if_neg hxn, if_neg hxK]
  · intro y hy
    rw [hch3, if_pos rfl] at hy
    have hy2 : some y ∈ (reattachChildren h1 n parent).children parent :=
      removeFirstSlot_mem_sub hfs hy
    rw [hch2, if_pos rfl] at hy2
    rcases List.mem_append.mp hy2 with hm | hm
    · exact Or.inl hm
    · rcases List.mem_map.mp hm with ⟨k, hk, hke⟩
      cases Option.some.inj hke
      exact Or.inr hk
  · intro q hq3
    exact (hreach3 hq3).1

/-- Unfolding of a non-root `delete` step through a successful transfer
and splice. -/
theorem delete_step {fuel : Nat} {h : Heap} {n parent : Nat} {pv ps : Bool}
    {h1 : Heap} {l2 : List (Option Nat)}
    (hup : h.up n = some parent) (hdt : distTransfer h n parent ps = .ok h1)
    (hok : removeChild (reattachChildren h1 n parent) parent n =
      .ok (n, spliceHeap h1 n parent l2)) :
    delete (fuel + 1) h n pv ps =
      if pv ∧ ((spliceHeap h1 n parent l2).children parent).length < 2 then
        delete fuel (spliceHeap h1 n parent l2) parent pv ps
      else .ok (spliceHeap h1 n parent l2) := by
  show (match h.up n with
    | none => Except.ok h
    | some parent =>
      match distTransfer h n parent ps with
      | .error e => Except.error e
      | .ok h1 =>
        let h2 := reattachChildren h1 n parent
        match removeChild h2 parent n with
        | .error e => Except.error e
        | .ok (_, h3) =>
          if pv ∧ (h3.children parent).length < 2 then
            delete fuel h3 parent pv ps
          else Except.ok h3) = _
  rw [hup]
  show (match distTransfer h n parent ps with
    | .error e => Except.error e
    | .ok h1 =>
      let h2 := reattachChildren h1 n parent
      match removeChild h2 parent n with
      | .error e => Except.error e
      | .ok (_, h3) =>
        if pv ∧ (h3.children parent).length < 2 then
          delete fuel h3 parent pv ps
        else Except.ok h3) = _
  rw [hdt]
  show (match removeChild (reattachChildren h1 n parent) parent n with
    | .error e => Except.error e
    | .ok (_, h3) =>
      if pv ∧ (h3.children parent).length < 2 then
        delete fuel h3 parent pv ps
      else Except.ok h3) = _
  rw [hok]

/-- Unfolding of `delete` on a root. -/
theorem delete_root {fuel : Nat} {h : Heap} {n : Nat} {pv ps : Bool}
    (hup : h.up n = none) : delete (fuel + 1) h n pv ps = .ok h := by
  show (match h.up n with
    | none => Except.ok h
    | some parent =>
      match distTransfer h n parent ps with
      | .error e => Except.error e
      | .ok h1 =>
        let h2 := reattachChildren h1 n parent
        match removeChild h2 parent n with
        | .error e => Except.error e
        | .ok (_, h3) =>
          if pv ∧ (h3.children parent).length < 2 then
            delete fuel h3 parent pv ps
          else Except.ok h3) = _
  rw [hup]

/-- Unfolding of `delete` when the branch-length transfer throws. -/
theorem delete_dist_err {fuel : Nat} {h : Heap} {n parent : Nat} {pv ps : Bool}
    {e : String × Heap}
    (hup : h.up n = some parent) (hdt : distTransfer h n parent ps = .error e) :
    delete (fuel + 1) h n pv ps = .error e := by
  show (match h.up n with
    | none => Except.ok h
    | some parent =>
      match distTransfer h n parent ps with
      | .error e => Except.error e
      | .ok h1 =>
        let h2 := reattachChildren h1 n parent
        match removeChild h2 parent n with
        | .error e => Except.error e
        | .ok (_, h3) =>
          if pv ∧ (h3.children parent).length < 2 then
            delete fuel h3 parent pv ps
          else Except.ok h3) = _
  rw [hup]
  show (match distTransfer h n parent ps with
    | .error e => Except.error e
    | .ok h1 =>
      let h2 := reattachChildren h1 n parent
      match removeChild h2 parent n with
      | .error e => Except.error e
      | .ok (_, h3) =>
        if pv ∧ (h3.children parent).length < 2 then
          delete fuel h3 parent pv ps
        else Except.ok h3) = _
  rw [hdt]

/-- Invariant preservation for `delete`, whatever the flags and fuel: the
resulting heap (the carried heap, on a throw) is well-formed. -/
theorem inv_delete {r : Nat} (fuel : Nat) :
    ∀ (h : Heap) (n : Nat) (pv ps : Bool), Inv h r → Reach h r n →
      Inv (resHeapD (delete fuel h n pv ps)) r := by
  induction fuel with
  | zero =>
    intro h n pv ps hinv hn
    exact hinv
  | succ fuel ih =>
    intro h n pv ps hinv hn
    cases hup : h.up n with
    | none =>
      rw [delete_root hup]
      exact hinv
    | some parent =>
      cases hdt : distTransfer h n parent ps with
      | error e =>
        rw [delete_dist_err hup hdt]
        have hre : resHeapD (Except.error e : Except (String × Heap) Heap) = h := by
          show e.2 = h
          exact distTransfer_err hdt
        rw [hre]
        exact hinv
      | ok h1 =>
        rcases splice_main hinv hn hup hdt with ⟨l2, hsf⟩
        rw [delete_step hup hdt hsf.ok]
        by_cases hc : pv ∧ ((spliceHeap h1 n parent l2).children parent).length < 2
        · rw [if_pos hc]
          exact ih _ _ pv ps hsf.inv hsf.parent_reach
        · rw [if_neg hc]
          exact hsf.inv

/-- Once a node is detached and absent from every reachable children
array, any further `delete` (and its recursion) keeps it that way. -/
theorem delete_removed {r x : Nat} (fuel : Nat) :
    ∀ (h : Heap) (n : Nat) (pv ps : Bool), Inv h r → Reach h r n →
      h.up x = none → (∀ q, Reach h r q → some x ∉ h.children q) →
      ((resHeapD (delete fuel h n pv ps)).up x = none ∧
       ∀ q, Reach (resHeapD (delete fuel h n pv ps)) r q →
         some x ∉ (resHeapD (delete fuel h n pv ps)).children q) := by
  induction fuel with
  | zero =>
    intro h n pv ps hinv hn hux habs
    exact ⟨hux, habs⟩
  | succ fuel ih =>
    intro h n pv ps hinv hn hux habs
    cases hup : h.up n with
    | none =>
      rw [delete_root hup]
      exact ⟨hux, habs⟩
    | some parent =>
      cases hdt : distTransfer h n parent ps with
      | error e =>
        rw [delete_dist_err hup hdt]
        have hre : resHeapD (Except.error e : Except (String × Heap) Heap) = h := by
          show e.2 = h
          exact distTransfer_err hdt
        rw [hre]
        exact ⟨hux, habs⟩
      | ok h1 =>
        rcases splice_main hinv hn hup hdt with ⟨l2, hsf⟩
        have hpar := parent_reachable hinv hn hup
        have hxn : x ≠ n := by
          rintro rfl
          exact habs parent hpar.1 hpar.2
        have hxK : x ∉ (h1.children n).filterMap id := by
          intro hk
          obtain ⟨hst1, hst2, hst3⟩ := distTransfer_structure hdt
          rw [hst2] at hk
          rcases List.mem_filterMap.mp hk with ⟨o, ho, hok2⟩
          cases hok2
          exact habs n hn ho
        have hux3 : (spliceHeap h1 n parent l2).up x = none := by
          rw [hsf.up_other x hxn hxK]
          exact hux
        have habs3 : ∀ q, Reach (spliceHeap h1 n parent l2) r q →
            some x ∉ (spliceHeap h1 n parent l2).children q := by
          intro q hq3 hmem
          by_cases hqp : q = parent
          · rw [hqp] at hmem
            rcases hsf.mem_parent x hmem with hm | hm
            · exact habs parent hpar.1 hm
            · exact hxK hm
          · rw [hsf.children_other q hqp] at hmem
            exact habs q (hsf.reach_sub q hq3) hmem
        rw [delete_step hup hdt hsf.ok]
        by_cases hc : pv ∧ ((spliceHeap h1 n parent l2).children parent).length < 2
        · rw [if_pos hc]
          exact ih _ _ pv ps hsf.inv hsf.parent_reach hux3 habs3
        · rw [if_neg hc]
          exact ⟨hux3, habs3⟩

/-! Traversal lemmas over rose trees (for the spec-modelled traversal
engine). -/

/-- Sizes add over forest concatenation. -/
theorem tsizeList_append (a b : List TNode) :
    tsizeList (a ++ b) = tsizeList a + tsizeList b := by
  induction a with
  | nil =>
    show tsizeList b = 0 + tsizeList b
    omega
  | cons x xs ih =>
    show tsize x + tsizeList (xs ++ b) = tsize x + tsizeList xs + tsizeList b
    omega

/-- Every tree has at least one node. -/
theorem tsize_pos (t : TNode) : 1 ≤ tsize t := by
  cases t with | mk s d su cs =>
  show 1 ≤ 1 + tsizeList cs
  omega

/-- Preorder of a forest concatenation. -/
theorem preorderList_append (a b : List TNode) :
    preorderList (a ++ b) = preorderList a ++ preorderList b := by
  induction a with
  | nil => rfl
  | cons x xs ih =>
    show preorder x ++ preorderList (xs ++ b) = (preorder x ++ preorderList xs) ++ preorderList b
    rw [ih, List.append_assoc]

/-- Postorder of a forest concatenation. -/
theorem postorderList_append (a b : List TNode) :
    postorderList (a ++ b) = postorderList a ++ postorderList b := by
  induction a with
  | nil => rfl
  | cons x xs ih =>
    show postorder x ++ postorderList (xs ++ b) = (postorder x ++ postorderList xs) ++ postorderList b
    rw [ih, List.append_assoc]

/-- Preorder of a forest enumerates exactly as many nodes as the forest
holds. -/
theorem preorderList_length : ∀ (n : Nat) (l : List TNode), tsizeList l ≤ n →
    (preorderList l).length = tsizeList l := by
  intro n
  induction n with
  | zero =>
    intro l hl
    cases l with
    | nil => rfl
    | cons t xs =>
      have := tsize_pos t
      have : 1 ≤ tsizeList (t :: xs) := by
        show 1 ≤ tsize t + tsizeList xs
        omega
      omega
  | succ n ih =>
    intro l hl
    cases l with
    | nil => rfl
    | cons t xs =>
      cases t with | mk s d su cs =>
      have hsz : tsizeList (TNode.mk s d su cs :: xs) =
          1 + tsizeList cs + tsizeList xs := by
        show tsize (TNode.mk s d su cs) + tsizeList xs = _
        show 1 + tsizeList cs + tsizeList xs = _
        rfl
      have hcs : tsizeList cs ≤ n := by omega
      have hxs : tsizeList xs ≤ n := by omega
      show ((TNode.mk s d su cs :: preorderList cs) ++ preorderList xs).length = _
      rw [List.length_append, List.length_cons, ih cs hcs, ih xs hxs, hsz]
      omega

/-- Postorder of a forest enumerates exactly as many nodes as the forest
holds. -/
theorem postorderList_length : ∀ (n : Nat) (l : List TNode), tsizeList l ≤ n →
    (postorderList l).length = tsizeList l := by
  intro n
  induction n with
  | zero =>
    intro l hl
    cases l with
    | nil => rfl
    | cons t xs =>
      have := tsize_pos t
      have : 1 ≤ tsizeList (t :: xs) := by
        show 1 ≤ tsize t + tsizeList xs
        omega
      omega
  | succ n ih =>
    intro l hl
    cases l with
    | nil => rfl
    | cons t xs =>
      cases t with | mk s d su cs =>
      have hsz : tsizeList (TNode.mk s d su cs :: xs) =
          1 + tsizeList cs + tsizeList xs := rfl
      have hcs : tsizeList cs ≤ n := by
        rw [hsz] at hl
        omega
      have hxs : tsizeList xs ≤ n := by
        rw [hsz] at hl
        omega
      show ((postorderList cs ++ [TNode.mk s d su cs]) ++ postorderList xs).length = _
      rw [List.length_append, List.length_append, ih cs hcs, ih xs hxs, hsz]
      simp
      omega

/-- Preorder and postorder of a forest are permutations of each other. -/
theorem perm_preorderList_postorderList : ∀ (n : Nat) (l : List TNode),
    tsizeList l ≤ n → (preorderList l).Perm (postorderList l) := by
  intro n
  induction n with
  | zero =>
    intro l hl
    cases l with
    | nil => exact List.Perm.refl _
    | cons t xs =>
      have := tsize_pos t
      have : 1 ≤ tsizeList (t :: xs) := by
        show 1 ≤ tsize t + tsizeList xs
        omega
      omega
  | succ n ih =>
    intro l hl
    cases l with
    | nil => exact List.Perm.refl _
    | cons t xs =>
      cases t with | mk s d su cs =>
      have hsz : tsizeList (TNode.mk s d su cs :: xs) =
          1 + tsizeList cs + tsizeList xs := rfl
      have hcs : tsizeList cs ≤ n := by
        rw [hsz] at hl
        omega
      have hxs : tsizeList xs ≤ n := by
        rw [hsz] at hl
        omega
      show ((TNode.mk s d su cs :: preorderList cs) ++ preorderList xs).Perm
        ((postorderList cs ++ [TNode.mk s d su cs]) ++ postorderList xs)
      refine List.Perm.append ?_ (ih xs hxs)
      refine List.Perm.trans (List.Perm.cons _ (ih cs hcs)) ?_
      exact (List.perm_append_singleton _ _).symm

/-- Levelorder and preorder of a forest are permutations of each other. -/
theorem perm_levelorder_preorderList : ∀ (n : Nat) (l : List TNode),
    tsizeList l ≤ n → (levelorder l).Perm (preorderList l) := by
  intro n
  induction n with
  | zero =>
    intro l hl
    cases l with
    | nil =>
      rw [levelorder]
      exact List.Perm.refl _
    | cons t xs =>
      have := tsize_pos t
      have : 1 ≤ tsizeList (t :: xs) := by
        show 1 ≤ tsize t + tsizeList xs
        omega
      omega
  | succ n ih =>
    intro l hl
    cases l with
    | nil =>
      rw [levelorder]
      exact List.Perm.refl _
    | cons t xs =>
      have hsz : tsizeList (t :: xs) = tsize t + tsizeList xs := rfl
      have hchild : tsizeList t.children + 1 ≤ tsize t := by
        cases t with | mk s d su cs =>
        show tsizeList cs + 1 ≤ 1 + tsizeList cs
        omega
      have hrec : tsizeList (xs ++ t.children) ≤ n := by
        rw [tsizeList_append]
        omega
      rw [levelorder]
      refine List.Perm.trans (List.Perm.cons _ (ih _ hrec)) ?_
      rw [preorderList_append]
      have hgoal : (t :: (preorderList xs ++ preorderList t.children)).Perm
          (preorderList (t :: xs)) := by
        have hsw : (preorderList xs ++ preorderList t.children).Perm
            (preorderList t.children ++ preorderList xs) := List.perm_append_comm
        refine List.Perm.trans (List.Perm.cons _ hsw) ?_
        show (t :: (preorderList t.children ++ preorderList xs)).Perm
          (preorder t ++ preorderList xs)
        cases t with | mk s d su cs =>
        exact List.Perm.refl _
      exact hgoal

/-- Every node of a subtree is no larger than the subtree. -/
theorem mem_preorderList_size : ∀ (n : Nat) (l : List TNode), tsizeList l ≤ n →
    ∀ v ∈ preorderList l, tsize v ≤ tsizeList l := by
  intro n
  induction n with
  | zero =>
    intro l hl v hv
    cases l with
    | nil => exact absurd hv (List.not_mem_nil v)
    | cons t xs =>
      have := tsize_pos t
      have : 1 ≤ tsizeList (t :: xs) := by
        show 1 ≤ tsize t + tsizeList xs
        omega
      omega
  | succ n ih =>
    intro l hl v hv
    cases l with
    | nil => exact absurd hv (List.not_mem_nil v)
    | cons t xs =>
      cases t with | mk s d su cs =>
      have hsz : tsizeList (TNode.mk s d su cs :: xs) =
          1 + tsizeList cs + tsizeList xs := rfl
      have hcs : tsizeList cs ≤ n := by
        rw [hsz] at hl
        omega
      have hxs : tsizeList xs ≤ n := by
        rw [hsz] at hl
        omega
      have hv2 : v ∈ (TNode.mk s d su cs :: preorderList cs) ++ preorderList xs := hv
      rcases List.mem_append.mp hv2 with hm | hm
      · rcases List.mem_cons.mp hm with hm | hm
        · subst hm
          rw [hsz]
          show 1 + tsizeList cs ≤ _
          omega
        · have := ih cs hcs v hm
          rw [hsz]
          omega
      · have := ih xs hxs v hm
        rw [hsz]
        omega

/-- Every node listed by a forest's preorder contributes its own preorder
as an infix. -/
theorem preorder_infix : ∀ (n : Nat) (l : List TNode), tsizeList l ≤ n →
    ∀ u ∈ preorderList l, ∃ A B, preorderList l = A ++ preorder u ++ B := by
  intro n
  induction n with
  | zero =>
    intro l hl u hu
    cases l with
    | nil => exact absurd hu (List.not_mem_nil u)
    | cons t xs =>
      have := tsize_pos t
      have : 1 ≤ tsizeList (t :: xs) := by
        show 1 ≤ tsize t + tsizeList xs
        omega
      omega
  | succ n ih =>
    intro l hl u hu
    cases l with
    | nil => exact absurd hu (List.not_mem_nil u)
    | cons t xs =>
      cases t with | mk s d su cs =>
      have hsz : tsizeList (TNode.mk s d su cs :: xs) =
          1 + tsizeList cs + tsizeList xs := rfl
      have hcs : tsizeList cs ≤ n := by
        rw [hsz] at hl
        omega
      have hxs : tsizeList xs ≤ n := by
        rw [hsz] at hl
        omega
      have hu2 : u ∈ (TNode.mk s d su cs :: preorderList cs) ++ preorderList xs := hu
      rcases List.mem_append.mp hu2 with hm | hm
      · rcases List.mem_cons.mp hm with hm | hm
        · subst hm
          exact ⟨[], preorderList xs, rfl⟩
        · rcases ih cs hcs u hm with ⟨A, B, hAB⟩
          refine ⟨TNode.mk s d su cs :: A, B ++ preorderList xs, ?_⟩
          show (TNode.mk s d su cs :: preorderList cs) ++ preorderList xs = _
          rw [hAB]
          simp
      · rcases ih xs hxs u hm with ⟨A, B, hAB⟩
        refine ⟨preorder (TNode.mk s d su cs) ++ A, B, ?_⟩
        show preorder (TNode.mk s d su cs) ++ preorderList xs = _
        rw [hAB]
        simp

/-- Every node listed by a forest's preorder contributes its own
postorder as an infix of the forest's postorder. -/
theorem postorder_infix : ∀ (n : Nat) (l : List TNode), tsizeList l ≤ n →
    ∀ u ∈ preorderList l, ∃ A B, postorderList l = A ++ postorder u ++ B := by
  intro n
  induction n with
  | zero =>
    intro l hl u hu
    cases l with
    | nil => exact absurd hu (List.not_mem_nil u)
    | cons t xs =>
      have := tsize_pos t
      have : 1 ≤ tsizeList (t :: xs) := by
        show 1 ≤ tsize t + tsizeList xs
        omega
      omega
  | succ n ih =>
    intro l hl u hu
    cases l with
    | nil => exact absurd hu (List.not_mem_nil u)
    | cons t xs =>
      cases t with | mk s d su cs =>
      have hsz : tsizeList (TNode.mk s d su cs :: xs) =
          1 + tsizeList cs + tsizeList xs := rfl
      have hcs : tsizeList cs ≤ n := by
        rw [hsz] at hl
        omega
      have hxs : tsizeList xs ≤ n := by
        rw [hsz] at hl
        omega
      have hu2 : u ∈ (TNode.mk s d su cs :: preorderList cs) ++ preorderList xs := hu
      rcases List.mem_append.mp hu2 with hm | hm
      · rcases List.mem_cons.mp hm with hm | hm
        · subst hm
          refine ⟨[], postorderList xs, ?_⟩
          show (postorderList cs ++ [TNode.mk s d su cs]) ++ postorderList xs = _
          simp
          show postorderList cs ++ TNode.mk s d su cs :: postorderList xs =
            (postorderList cs ++ [TNode.mk s d su cs]) ++ postorderList xs
          simp
        · rcases ih cs hcs u hm with ⟨A, B, hAB⟩
          refine ⟨A, B ++ [TNode.mk s d su cs] ++ postorderList xs, ?_⟩
          show (postorderList cs ++ [TNode.mk s d su cs]) ++ postorderList xs = _
          rw [hAB]
          simp
      · rcases ih xs hxs u hm with ⟨A, B, hAB⟩
        refine ⟨postorder (TNode.mk s d su cs) ++ A, B, ?_⟩
        show postorder (TNode.mk s d su cs) ++ postorderList xs = _
        rw [hAB]
        simp

/-- Preorder of a one-tree forest. -/
theorem preorderList_singleton (t : TNode) : preorderList [t] = preorder t := by
  show preorder t ++ preorderList [] = preorder t
  rw [show preorderList ([] : List TNode) = [] from rfl, List.append_nil]

/-- Postorder of a one-tree forest. -/
theorem postorderList_singleton (t : TNode) : postorderList [t] = postorder t := by
  show postorder t ++ postorderList [] = postorder t
  rw [show postorderList ([] : List TNode) = [] from rfl, List.append_nil]

/-- Preorder enumerates exactly the tree's nodes. -/
theorem preorder_length (t : TNode) : (preorder t).length = tsize t := by
  cases t with | mk s d su cs =>
  show (TNode.mk s d su cs :: preorderList cs).length = 1 + tsizeList cs
  rw [List.length_cons, preorderList_length (tsizeList cs) cs le_rfl]
  omega

/-- Postorder enumerates exactly the tree's nodes. -/
theorem postorder_length (t : TNode) : (postorder t).length = tsize t := by
  cases t with | mk s d su cs =>
  show (postorderList cs ++ [TNode.mk s d su cs]).length = 1 + tsizeList cs
  rw [List.length_append, postorderList_length (tsizeList cs) cs le_rfl]
  simp
  omega

/-- Preorder and postorder of a tree are permutations of each other. -/
theorem perm_pre_post (t : TNode) : (preorder t).Perm (postorder t) := by
  have h := perm_preorderList_postorderList (tsizeList [t]) [t] le_rfl
  rwa [preorderList_singleton, postorderList_singleton] at h

/-- Levelorder and preorder of a tree are permutations of each other. -/
theorem perm_level_pre (t : TNode) : (levelorder [t]).Perm (preorder t) := by
  have h := perm_levelorder_preorderList (tsizeList [t]) [t] le_rfl
  rwa [preorderList_singleton] at h

/-- A tree is not one of its own descendants. -/
theorem not_mem_own_descendants (t : TNode) : t ∉ getDescendants t := by
  intro hmem
  have hperm := perm_levelorder_preorderList (tsizeList t.children) t.children le_rfl
  have hm2 : t ∈ preorderList t.children := hperm.mem_iff.mp hmem
  have hsz := mem_preorderList_size (tsizeList t.children) t.children le_rfl t hm2
  have hlt : tsizeList t.children + 1 ≤ tsize t := by
    cases t with | mk s d su cs =>
    show tsizeList cs + 1 ≤ 1 + tsizeList cs
    omega
  omega

/-- Example tree for witnesses: root with a leaf and an internal child. -/
def tExC : TNode := .mk "c" 1 1 []

/-- Example tree for witnesses: the internal child. -/
def tExB : TNode := .mk "b" 1 1 [tExC]

/-- Example tree for witnesses: the root. -/
def tEx : TNode := .mk "r" 1 1 [.mk "a" 1 1 [], tExB]

/-- C9: the preorder, postorder, and levelorder traversals from the root
(reached through the `traverse` dispatcher) each list exactly the tree's
node count, the three sequences hold the same set of nodes, and around
any occurrence of a node `u` the postorder splits with every descendant
of `u` occurring before `u`, the preorder with every descendant occurring
after `u`. -/
theorem C9_traversal_completeness (t : TNode) :
    traverse t "preorder" = some (preorder t) ∧
    traverse t "postorder" = some (postorder t) ∧
    traverse t "levelorder" = some (levelorder [t]) ∧
    (preorder t).length = tsize t ∧
    (postorder t).length = tsize t ∧
    (levelorder [t]).length = tsize t ∧
    (∀ x, x ∈ preorder t ↔ x ∈ postorder t) ∧
    (∀ x, x ∈ preorder t ↔ x ∈ levelorder [t]) ∧
    (∀ u, u ∈ preorder t → ∃ A B, postorder t = A ++ u :: B ∧
      ∀ v, v ∈ preorderList u.children → v ∈ A) ∧
    (∀ u, u ∈ preorder t → ∃ A B, preorder t = A ++ u :: B ∧
      ∀ v, v ∈ preorderList u.children → v ∈ B) := by
  refine ⟨rfl, rfl, rfl, preorder_length t, postorder_length t, ?_, ?_, ?_, ?_, ?_⟩
  · rw [(perm_level_pre t).length_eq]
    exact preorder_length t
  · intro x
    exact (perm_pre_post t).mem_iff
  · intro x
    exact (perm_level_pre t).mem_iff.symm
  · intro u hu
    have hu2 : u ∈ preorderList [t] := by
      rw [preorderList_singleton]
      exact hu
    rcases postorder_infix (tsizeList [t]) [t] le_rfl u hu2 with ⟨A, B, hAB⟩
    rw [postorderList_singleton] at hAB
    cases u with | mk s d su cs =>
    refine ⟨A ++ postorderList cs, B, ?_, ?_⟩
    · rw [hAB]
      show A ++ (postorderList cs ++ [TNode.mk s d su cs]) ++ B = _
      simp
    · intro v hv
      have hvp : v ∈ postorderList cs :=
        (perm_preorderList_postorderList (tsizeList cs) cs le_rfl).mem_iff.mp hv
      exact List.mem_append_right _ hvp
  · intro u hu
    have hu2 : u ∈ preorderList [t] := by
      rw [preorderList_singleton]
      exact hu
    rcases preorder_infix (tsizeList [t]) [t] le_rfl u hu2 with ⟨A, B, hAB⟩
    rw [preorderList_singleton] at hAB
    cases u with | mk s d su cs =>
    refine ⟨A, preorderList cs ++ B, ?_, ?_⟩
    · rw [hAB]
      show A ++ (TNode.mk s d su cs :: preorderList cs) ++ B = _
      simp
    · intro v hv
      exact List.mem_append_left _ hv

/-- Witness for C9 at a concrete three-level tree, instantiating the
order properties at the internal node `b` and its descendant `c`. -/
theorem C9_witness :
    (preorder tEx).length = tsize tEx ∧
    (∃ A B, postorder tEx = A ++ tExB :: B ∧
      ∀ v, v ∈ preorderList tExB.children → v ∈ A) ∧
    (∃ A B, preorder tEx = A ++ tExB :: B ∧
      ∀ v, v ∈ preorderList tExB.children → v ∈ B) := by
  have h := C9_traversal_completeness tEx
  refine ⟨h.2.2.2.1, ?_, ?_⟩
  · exact h.2.2.2.2.2.2.2.2.1 tExB (by decide)
  · exact h.2.2.2.2.2.2.2.2.2 tExB (by decide)

/-- C10: `contains` is asymmetric about the receiver — with the node
itself as argument it answers `false` (membership is tested against the
descendants only), with the node's own name it answers `true` (membership
is tested against the names of the full traversal, receiver included),
and with an argument that is neither a node nor a string it returns
`undefined` (neither `true` nor `false`). -/
theorem C10_contains_asymmetry (t : TNode) :
    contains t (.node t) = some false ∧
    contains t (.str t.name) = some true ∧
    contains t .other = none := by
  refine ⟨?_, ?_, rfl⟩
  · show some (decide (t ∈ getDescendants t)) = some false
    rw [decide_eq_false (not_mem_own_descendants t)]
  · show some (decide (t.name ∈ (levelorder [t]).map TNode.name)) = some true
    have hmem : t ∈ levelorder [t] := by
      rw [levelorder]
      exact List.mem_cons_self _ _
    rw [decide_eq_true (List.mem_map.mpr ⟨t, hmem, rfl⟩)]

/-! Concrete heaps for witnesses and counterexamples. -/

/-- Two-slot count bound. -/
theorem count_pair_le_one {x a b : Option Nat} (hab : a ≠ b) :
    List.count x [a, b] ≤ 1 := by
  by_cases hax : a = x
  · by_cases hbx : b = x
    · exact absurd (hax.trans hbx.symm) hab
    · subst hax
      have hb : (b == a) = false := by simp [hbx]
      rw [List.count_cons, List.count_cons, List.count_nil, hb]
      simp
  · have ha : (a == x) = false := by simp [hax]
    rw [List.count_cons, List.count_cons, List.count_nil, ha]
    by_cases hbx : b = x
    · simp [hbx]
    · have hb : (b == x) = false := by simp [hbx]
      rw [hb]
      simp

/-- Concrete tree: root `0` with children `1` and `2`. -/
def cHeapA : Heap where
  up := fun i => if i = 1 then some 0 else if i = 2 then some 0 else none
  children := fun i => if i = 0 then [some 1, some 2] else []
  name := fun _ => ""
  dist := fun _ => 1
  support := fun _ => 1
  fresh := 3

/-- The concrete tree `cHeapA` is well-formed. -/
theorem inv_cHeapA : Inv cHeapA 0 := by
  have hbound : ∀ {x}, Reach cHeapA 0 x → x ∈ [0, 1, 2] :=
    fun hx => reach_mem_of_closed (by decide) (by decide) hx
  have hb3 : ∀ {x}, Reach cHeapA 0 x → x = 0 ∨ x = 1 ∨ x = 2 := by
    intro x hx
    simpa using hbound hx
  refine ⟨rfl, ?_, ?_, ?_, ?_, ?_⟩
  · intro n q hn hq
    rcases hb3 hn with rfl | rfl | rfl <;> rcases hb3 hq with rfl | rfl | rfl <;> decide
  · intro n q q2 hq hq2 hm hm2
    rcases hb3 hq with rfl | rfl | rfl <;> rcases hb3 hq2 with rfl | rfl | rfl <;>
      simp_all [cHeapA]
  · intro n q hq
    rcases hb3 hq with rfl | rfl | rfl
    · exact count_pair_le_one (by decide)
    · show List.count (some n) [] ≤ 1
      simp
    · show List.count (some n) [] ≤ 1
      simp
  · intro n hn
    rcases hb3 hn with rfl | rfl | rfl <;> decide
  · intro n hn
    have hn3 : 3 ≤ n := hn
    constructor
    · show (if n = 1 then some 0 else if n = 2 then some 0 else none) = none
      rw [if_neg (by omega), if_neg (by omega)]
    · show (if n = 0 then [some 1, some 2] else []) = []
      rw [if_neg (by omega)]

/-- C8: `addChild(child?, name?, dist?, support?)` appends the child (a
fresh default node when none is given) to the parent's children, sets the
child's parent back-reference, overrides name, dist and support only when
the corresponding argument is supplied and truthy (falsy or absent
arguments keep the child's existing values, the fresh node's defaults
being `""`, `1.0`, `1.0`), and returns the child. -/
theorem C8_addChild (h : Heap) (p c : Nat) (nm : Option String) (d sup : Option ℚ) :
    ((addChild h p (some c) nm d sup).1 = c ∧
      (addChild h p (some c) nm d sup).2.children p = h.children p ++ [some c] ∧
      (addChild h p (some c) nm d sup).2.up c = some p ∧
      (∀ x, x ≠ p → (addChild h p (some c) nm d sup).2.children x = h.children x) ∧
      ((nm = none ∨ nm = some "") →
        (addChild h p (some c) nm d sup).2.name c = h.name c) ∧
      (∀ s, nm = some s → s ≠ "" → (addChild h p (some c) nm d sup).2.name c = s) ∧
      ((d = none ∨ d = some 0) →
        (addChild h p (some c) nm d sup).2.dist c = h.dist c) ∧
      (∀ q, d = some q → q ≠ 0 → (addChild h p (some c) nm d sup).2.dist c = q) ∧
      ((sup = none ∨ sup = some 0) →
        (addChild h p (some c) nm d sup).2.support c = h.support c) ∧
      (∀ q, sup = some q → q ≠ 0 →
        (addChild h p (some c) nm d sup).2.support c = q)) ∧
    ((addChild h p none nm d sup).1 = h.fresh ∧
      (addChild h p none nm d sup).2.up h.fresh = some p ∧
      (p ≠ h.fresh →
        (addChild h p none nm d sup).2.children p = h.children p ++ [some h.fresh]) ∧
      ((nm = none ∨ nm = some "") →
        (addChild h p none nm d sup).2.name h.fresh = "") ∧
      (∀ s, nm = some s → s ≠ "" → (addChild h p none nm d sup).2.name h.fresh = s) ∧
      ((d = none ∨ d = some 0) → (addChild h p none nm d sup).2.dist h.fresh = 1) ∧
      (∀ q, d = some q → q ≠ 0 → (addChild h p none nm d sup).2.dist h.fresh = q) ∧
      ((sup = none ∨ sup = some 0) →
        (addChild h p none nm d sup).2.support h.fresh = 1) ∧
      (∀ q, sup = some q → q ≠ 0 →
        (addChild h p none nm d sup).2.support h.fresh = q)) := by
  constructor
  · refine ⟨rfl, ?_, ?_, ?_, ?_, ?_, ?_, ?_, ?_, ?_⟩
    · show upd h.children p (h.children p ++ [some c]) p = _
      rw [upd, if_pos rfl]
    · show upd h.up c (some p) c = _
      rw [upd, if_pos rfl]
    · intro x hx
      show upd h.children p (h.children p ++ [some c]) x = _
      rw [upd, if_neg hx]
    · intro hnm
      show upd h.name c (truthyStr nm (h.name c)) c = _
      rw [upd, if_pos rfl]
      rcases hnm with rfl | rfl
      · rfl
      · show (if ("" : String) = "" then h.name c else "") = _
        rw [if_pos rfl]
    · intro s hs hne
      subst hs
      show upd h.name c (truthyStr (some s) (h.name c)) c = _
      rw [upd, if_pos rfl]
      show (if s = "" then h.name c else s) = _
      rw [if_neg hne]
    · intro hd
      show upd h.dist c (truthyNum d (h.dist c)) c = _
      rw [upd, if_pos rfl]
      rcases hd with rfl | rfl
      · rfl
      · show (if (0 : ℚ) = 0 then h.dist c else 0) = _
        rw [if_pos rfl]
    · intro q hq hne
      subst hq
      show upd h.dist c (truthyNum (some q) (h.dist c)) c = _
      rw [upd, if_pos rfl]
      show (if q = 0 then h.dist c else q) = _
      rw [if_neg hne]
    · intro hs
      show upd h.support c (truthyNum sup (h.support c)) c = _
      rw [upd, if_pos rfl]
      rcases hs with rfl | rfl
      · rfl
      · show (if (0 : ℚ) = 0 then h.support c else 0) = _
        rw [if_pos rfl]
    · intro q hq hne
      subst hq
      show upd h.support c (truthyNum (some q) (h.support c)) c = _
      rw [upd, if_pos rfl]
      show (if q = 0 then h.support c else q) = _
      rw [if_neg hne]
  · have halloc_name : (allocNode h).2.name h.fresh = "" := by
      show upd h.name h.fresh "" h.fresh = ""
      rw [upd, if_pos rfl]
    have halloc_dist : (allocNode h).2.dist h.fresh = 1 := by
      show upd h.dist h.fresh 1 h.fresh = 1
      rw [upd, if_pos rfl]
    have halloc_sup : (allocNode h).2.support h.fresh = 1 := by
      show upd h.support h.fresh 1 h.fresh = 1
      rw [upd, if_pos rfl]
    refine ⟨rfl, ?_, ?_, ?_, ?_, ?_, ?_, ?_, ?_⟩
    · show upd (allocNode h).2.up h.fresh (some p) h.fresh = _
      rw [upd, if_pos rfl]
    · intro hp
      show upd (allocNode h).2.children p
        ((allocNode h).2.children p ++ [some h.fresh]) p = _
      rw [upd, if_pos rfl, allocNode_children, if_neg hp]
    · intro hnm
      show upd (allocNode h).2.name h.fresh
        (truthyStr nm ((allocNode h).2.name h.fresh)) h.fresh = _
      rw [upd, if_pos rfl, halloc_name]
      rcases hnm with rfl | rfl
      · rfl
      · show (if ("" : String) = "" then "" else "") = _
        rw [if_pos rfl]
    · intro s hs hne
      subst hs
      show upd (allocNode h).2.name h.fresh
        (truthyStr (some s) ((allocNode h).2.name h.fresh)) h.fresh = _
      rw [upd, if_pos rfl, halloc_name]
      show (if s = "" then "" else s) = _
      rw [if_neg hne]
    · intro hd
      show upd (allocNode h).2.dist h.fresh
        (truthyNum d ((allocNode h).2.dist h.fresh)) h.fresh = _
      rw [upd, if_pos rfl, halloc_dist]
      rcases hd with rfl | rfl
      · rfl
      · show (if (0 : ℚ) = 0 then 1 else 0) = _
        rw [if_pos rfl]
    · intro q hq hne
      subst hq
      show upd (allocNode h).2.dist h.fresh
        (truthyNum (some q) ((allocNode h).2.dist h.fresh)) h.fresh = _
      rw [upd, if_pos rfl, halloc_dist]
      show (if q = 0 then 1 else q) = _
      rw [if_neg hne]
    · intro hs
      show upd (allocNode h).2.support h.fresh
        (truthyNum sup ((allocNode h).2.support h.fresh)) h.fresh = _
      rw [upd, if_pos rfl, halloc_sup]
      rcases hs with rfl | rfl
      · rfl
      · show (if (0 : ℚ) = 0 then 1 else 0) = _
        rw [if_pos rfl]
    · intro q hq hne
      subst hq
      show upd (allocNode h).2.support h.fresh
        (truthyNum (some q) ((allocNode h).2.support h.fresh)) h.fresh = _
      rw [upd, if_pos rfl, halloc_sup]
      show (if q = 0 then 1 else q) = _
      rw [if_neg hne]

/-- Witness for C8 on the concrete tree: an explicit child keeps its
name under a falsy argument and takes a supplied truthy name; the
no-child call appends the fresh node `3` with its defaults. -/
theorem C8_witness :
    ((addChild cHeapA 1 (some 2) (some "x") none (some 0)).2.name 2 = "x" ∧
      (addChild cHeapA 1 (some 2) (some "x") none (some 0)).2.support 2 =
        cHeapA.support 2 ∧
      (addChild cHeapA 1 (some 2) (some "x") none (some 0)).2.up 2 = some 1) ∧
    ((addChild cHeapA 1 none none (some 5) none).1 = 3 ∧
      (addChild cHeapA 1 none none (some 5) none).2.children 1 =
        cHeapA.children 1 ++ [some 3] ∧
      (addChild cHeapA 1 none none (some 5) none).2.dist 3 = 5 ∧
      (addChild cHeapA 1 none none (some 5) none).2.name 3 = "") := by
  have h1 := (C8_addChild cHeapA 1 2 (some "x") none (some 0)).1
  have h2 := (C8_addChild cHeapA 1 2 (some "x") none (some 0)).2
  have h3 := (C8_addChild cHeapA 1 3 none (some 5) none).2
  refine ⟨⟨?_, ?_, ?_⟩, ?_, ?_, ?_, ?_⟩
  · exact h1.2.2.2.2.2.1 "x" rfl (by decide)
  · exact h1.2.2.2.2.2.2.2.2.1 (Or.inr rfl)
  · exact h1.2.2.1
  · exact h3.1
  · exact h3.2.2.1 (by decide)
  · exact h3.2.2.2.2.2.2.1 5 rfl (by decide)
  · exact h3.2.2.2.1 (Or.inl rfl)

/-- C2: `removeChild(child)` on a direct child removes it from the
parent's children (afterwards it is not an element and the number of
children — present slots — drops by one), clears its parent pointer,
leaves every other node's fields alone, and returns the child; on a
non-child it throws the child-not-found error with the heap unchanged. -/
theorem C2_removeChild {h : Heap} {r p : Nat} (c : Nat) (hinv : Inv h r)
    (hp : Reach h r p) :
    (some c ∈ h.children p →
      ∃ h2, removeChild h p c = .ok (c, h2) ∧
        some c ∉ h2.children p ∧
        ((h2.children p).filterMap id).length + 1 =
          ((h.children p).filterMap id).length ∧
        h2.up c = none ∧
        (∀ x, x ≠ p → h2.children x = h.children x) ∧
        (∀ x, x ≠ c → h2.up x = h.up x)) ∧
    (some c ∉ h.children p →
      removeChild h p c = .error ("Error: child not found", h)) := by
  constructor
  · intro hmem
    rcases removeChild_ok hmem with ⟨l2, hfs, hok⟩
    refine ⟨removeChildHeap h p c l2, hok, ?_, ?_, ?_, ?_, ?_⟩
    · show some c ∉ upd h.children p l2 p
      rw [upd, if_pos rfl]
      exact removeFirstSlot_not_mem hfs (hinv.once_within hp)
    · show ((upd h.children p l2 p).filterMap id).length + 1 = _
      rw [upd, if_pos rfl]
      exact removeFirstSlot_present hfs
    · show upd h.up c none c = none
      rw [upd, if_pos rfl]
    · intro x hx
      show upd h.children p l2 x = _
      rw [upd, if_neg hx]
    · intro x hx
      show upd h.up c none x = _
      rw [upd, if_neg hx]
  · intro hnm
    exact removeChild_err hnm

/-- Witness for C2 on the concrete tree: removing child `1` of the root
succeeds with the stated effects, and removing the non-child `2` from
node `1` throws. -/
theorem C2_witness :
    (∃ h2, removeChild cHeapA 0 1 = .ok (1, h2) ∧
      some 1 ∉ h2.children 0 ∧
      ((h2.children 0).filterMap id).length + 1 =
        ((cHeapA.children 0).filterMap id).length ∧
      h2.up 1 = none ∧
      (∀ x, x ≠ 0 → h2.children x = cHeapA.children x) ∧
      (∀ x, x ≠ 1 → h2.up x = cHeapA.up x)) ∧
    removeChild cHeapA 1 2 = .error ("Error: child not found", cHeapA) := by
  constructor
  · exact (C2_removeChild 1 inv_cHeapA Reach.refl).1 (by decide)
  · exact (C2_removeChild 2 inv_cHeapA
      (Reach.step Reach.refl (by decide))).2 (by decide)

/-- Counterexample to C1 as stated: on the well-formed two-child tree
`cHeapA`, calling `addChild` on node `1` with the already attached node
`2` leaves `2` in the children arrays of the two distinct reachable
parents `0` and `1`, so parent/child consistency is not preserved by
`addChild` on an attached child. -/
theorem C1_counterexample :
    SpecInv cHeapA 0 ∧
    Reach (addChild cHeapA 1 (some 2) none none none).2 0 0 ∧
    Reach (addChild cHeapA 1 (some 2) none none none).2 0 1 ∧
    some 2 ∈ (addChild cHeapA 1 (some 2) none none none).2.children 0 ∧
    some 2 ∈ (addChild cHeapA 1 (some 2) none none none).2.children 1 ∧
    (0 : Nat) ≠ 1 ∧
    ¬ SpecInv (addChild cHeapA 1 (some 2) none none none).2 0 := by
  have hr1 : Reach (addChild cHeapA 1 (some 2) none none none).2 0 1 :=
    Reach.step Reach.refl (by decide)
  refine ⟨?_, Reach.refl, hr1, by decide, by decide, by decide, ?_⟩
  · exact ⟨fun n p hn hp => inv_cHeapA.parent_iff hn hp,
      fun n p q hp hq hm hm2 => inv_cHeapA.once_across hp hq hm hm2⟩
  · rintro ⟨-, honce⟩
    have h01 := honce 2 0 1 Reach.refl hr1 (by decide) (by decide)
    exact absurd h01 (by decide)

/-- C1 (amended): the parent/child consistency invariant — strengthened
to a genuine rooted-tree invariant (`Inv`: the `iff` consistency plus
each node occurring in at most one slot of at most one reachable parent,
a parentless root, and allocator freshness), which implies the
specification's `SpecInv` — is preserved by `removeChild`, `detach`,
`remove_sister` and `delete` on reachable nodes, and by `addChild` and
`addSister` provided the appended child is fresh (no argument) or heads a
well-formed subtree disjoint from the tree; `addChild` on an attached
node violates the invariant. -/
theorem C1_invariant_preservation {h : Heap} {r : Nat} (hinv : Inv h r) :
    SpecInv h r ∧
    (∀ p c nm d sup, Reach h r p → Inv h c →
      (∀ x, Reach h c x → ¬ Reach h r x) →
      Inv (addChild h p (some c) nm d sup).2 r) ∧
    (∀ p nm d sup, Reach h r p → Inv (addChild h p none nm d sup).2 r) ∧
    (∀ p c, Reach h r p → Inv (resHeap (removeChild h p c)) r) ∧
    (∀ s c nm dd, Reach h r s → Inv h c →
      (∀ x, Reach h c x → ¬ Reach h r x) →
      Inv (resHeap (addSister h s (some c) nm dd)) r) ∧
    (∀ s nm dd, Reach h r s → Inv (resHeap (addSister h s none nm dd)) r) ∧
    (∀ s sis, Reach h r s → Inv (resHeap (remove_sister h s sis)) r) ∧
    (∀ n, Reach h r n → Inv (resHeap (detach h n)) r) ∧
    (∀ fuel n pv ps, Reach h r n → Inv (resHeapD (delete fuel h n pv ps)) r) := by
  refine ⟨?_, ?_, ?_, ?_, ?_, ?_, ?_, ?_, ?_⟩
  · exact ⟨fun n p hn hp => hinv.parent_iff hn hp,
      fun n p q hp hq hm hm2 => hinv.once_across hp hq hm hm2⟩
  · intro p c nm d sup hp hcinv hdisj
    exact inv_addChild_detached hinv hp hcinv hdisj nm d sup
  · intro p nm d sup hp
    exact inv_addChild_fresh hinv hp nm d sup
  · intro p c hp
    exact inv_removeChild hinv hp
  · intro s c nm dd hs hcinv hdisj
    exact inv_addSister_detached hinv hs hcinv hdisj nm dd
  · intro s nm dd hs
    exact inv_addSister_fresh hinv hs nm dd
  · intro s sis hs
    exact inv_remove_sister hinv hs sis
  · intro n hn
    exact inv_detach hinv hn
  · intro fuel n pv ps hn
    exact inv_delete fuel h n pv ps hinv hn

/-- Witness for the amended C1 on the concrete tree `cHeapA`:
`removeChild`, `delete`, a fresh `addChild` and `detach` all preserve the
strengthened invariant. -/
theorem C1_witness :
    Inv (resHeap (removeChild cHeapA 0 1)) 0 ∧
    Inv (resHeapD (delete 5 cHeapA 1 true false)) 0 ∧
    Inv (addChild cHeapA 0 none none none none).2 0 ∧
    Inv (resHeap (detach cHeapA 2)) 0 := by
  have hth := C1_invariant_preservation inv_cHeapA
  have hr1 : Reach cHeapA 0 1 := Reach.step Reach.refl (by decide)
  have hr2 : Reach cHeapA 0 2 := Reach.step Reach.refl (by decide)
  exact ⟨hth.2.2.2.1 0 1 Reach.refl,
    hth.2.2.2.2.2.2.2.2 5 1 true false hr1,
    hth.2.2.1 0 none none none Reach.refl,
    hth.2.2.2.2.2.2.2.1 2 hr2⟩

/-- Concrete chain `0 → 1 → 2 → 3`, each node the single child of the
previous one. -/
def chainH : Heap where
  up := fun i =>
    if i = 1 then some 0 else if i = 2 then some 1 else if i = 3 then some 2 else none
  children := fun i =>
    if i = 0 then [some 1] else if i = 1 then [some 2]
    else if i = 2 then [some 3] else []
  name := fun _ => ""
  dist := fun _ => 1
  support := fun _ => 1
  fresh := 4

/-- The concrete chain is well-formed. -/
theorem inv_chainH : Inv chainH 0 := by
  have hbound : ∀ {x}, Reach chainH 0 x → x ∈ [0, 1, 2, 3] :=
    fun hx => reach_mem_of_closed (by decide) (by decide) hx
  have hb4 : ∀ {x}, Reach chainH 0 x → x = 0 ∨ x = 1 ∨ x = 2 ∨ x = 3 := by
    intro x hx
    simpa using hbound hx
  refine ⟨rfl, ?_, ?_, ?_, ?_, ?_⟩
  · intro n q hn hq
    rcases hb4 hn with rfl | rfl | rfl | rfl <;>
      rcases hb4 hq with rfl | rfl | rfl | rfl <;> decide
  · intro n q q2 hq hq2 hm hm2
    rcases hb4 hq with rfl | rfl | rfl | rfl <;>
      rcases hb4 hq2 with rfl | rfl | rfl | rfl <;> simp_all [chainH]
  · intro n q hq
    have hone : ∀ (x a : Option Nat), List.count x [a] ≤ 1 := by
      intro x a
      rw [List.count_singleton]
      split <;> omega
    rcases hb4 hq with rfl | rfl | rfl | rfl
    · exact hone (some n) (some 1)
    · exact hone (some n) (some 2)
    · exact hone (some n) (some 3)
    · show List.count (some n) [] ≤ 1
      simp
  · intro n hn
    rcases hb4 hn with rfl | rfl | rfl | rfl <;> decide
  · intro n hn
    have hn4 : 4 ≤ n := hn
    constructor
    · show (if n = 1 then some 0 else if n = 2 then some 1
        else if n = 3 then some 2 else none) = none
      rw [if_neg (by omega), if_neg (by omega), if_neg (by omega)]
    · show (if n = 0 then [some 1] else if n = 1 then [some 2]
        else if n = 2 then [some 3] else []) = []
      rw [if_neg (by omega), if_neg (by omega), if_neg (by omega)]

/-- C4 evaluation at the failing input: on the pristine chain
`0 → 1 → 2 → 3`, `delete(preventNonBifurcating = true)` of node `2`
leaves the non-root node `1` with exactly one child (`3`): its children
array is `[hole, 3]`, of length `2`, so the `length < 2` recursion guard
does not fire and the degree-1 node survives. -/
theorem C4_code_bug_eval :
    delete 5 chainH 2 true false = .ok (resHeapD (delete 5 chainH 2 true false)) ∧
    (resHeapD (delete 5 chainH 2 true false)).children 1 = [none, some 3] ∧
    presentChildren (resHeapD (delete 5 chainH 2 true false)) 1 = [3] ∧
    (resHeapD (delete 5 chainH 2 true false)).up 3 = some 1 ∧
    Reach (resHeapD (delete 5 chainH 2 true false)) 0 1 ∧
    (1 : Nat) ≠ 0 := by
  refine ⟨by rfl, by decide, by decide, by decide, ?_, by decide⟩
  exact Reach.step Reach.refl (by decide)

/-- Concrete tree `0 → 1 → {2, 3}` with unit branch lengths. -/
def cHeapD3 : Heap where
  up := fun i =>
    if i = 1 then some 0 else if i = 2 then some 1 else if i = 3 then some 1 else none
  children := fun i =>
    if i = 0 then [some 1] else if i = 1 then [some 2, some 3] else []
  name := fun _ => ""
  dist := fun _ => 1
  support := fun _ => 1
  fresh := 4

/-- Counterexample to C3 as stated: after `removeChild` holes node `1`'s
children array to `[hole, 3]`, node `1` has exactly one child (`3`), yet
`delete(preserveBranchLength = true)` reads `children.length === 2`,
takes the many-children branch, adds the length to the parent's branch
(`dist 0` becomes `2`) and leaves the single child's branch length
unchanged (`dist 3` stays `1`). -/
theorem C3_counterexample :
    removeChild cHeapD3 1 2 = .ok (2, resHeap (removeChild cHeapD3 1 2)) ∧
    presentChildren (resHeap (removeChild cHeapD3 1 2)) 1 = [3] ∧
    (resHeap (removeChild cHeapD3 1 2)).dist 3 = 1 ∧
    (resHeap (removeChild cHeapD3 1 2)).dist 1 = 1 ∧
    delete 5 (resHeap (removeChild cHeapD3 1 2)) 1 true true =
      .ok (resHeapD (delete 5 (resHeap (removeChild cHeapD3 1 2)) 1 true true)) ∧
    (resHeapD (delete 5 (resHeap (removeChild cHeapD3 1 2)) 1 true true)).dist 3 = 1 ∧
    (resHeapD (delete 5 (resHeap (removeChild cHeapD3 1 2)) 1 true true)).dist 0 = 2 :=
  ⟨rfl, by decide, by decide, by decide, rfl, by decide, by
    show (1 : ℚ) + 1 = 2
    norm_num⟩

/-- C3 (amended): on a well-formed tree, `delete` of a root leaves the
heap unchanged; with `preserveBranchLength` set, the branch test is on
`children.length` (holes included): a children array `[some c]` makes `c`
absorb the node's length, an array `[hole]` raises the TypeError of
reading `.dist` of `undefined`, and a longer array makes the parent
absorb the length; and in every successful run the present children are
reattached to the former parent while the node ends detached and absent
from every reachable children array. -/
theorem C3_delete_amended {h : Heap} {r n : Nat} (hinv : Inv h r)
    (hn : Reach h r n) :
    (∀ fuel pv ps, h.up n = none → delete (fuel + 1) h n pv ps = .ok h) ∧
    (∀ fuel pv parent c h3, h.up n = some parent → h.children n = [some c] →
      delete (fuel + 1) h n pv true = .ok h3 →
      h3.dist c = h.dist c + h.dist n) ∧
    (∀ fuel pv parent, h.up n = some parent → h.children n = [none] →
      delete (fuel + 1) h n pv true =
        .error ("TypeError: cannot read dist of undefined", h)) ∧
    (∀ fuel pv parent h3, h.up n = some parent → (h.children n).length > 1 →
      delete (fuel + 1) h n pv true = .ok h3 →
      h3.dist parent = h.dist parent + h.dist n) ∧
    (∀ fuel pv ps parent h3, h.up n = some parent →
      delete (fuel + 1) h n pv ps = .ok h3 →
      (∀ k, k ∈ presentChildren h n →
        h3.up k = some parent ∧ some k ∈ h3.children parent) ∧
      h3.up n = none ∧
      (∀ q, Reach h3 r q → some n ∉ h3.children q)) := by
  have hlenp : ∀ {parent}, h.up n = some parent → 1 ≤ (h.children parent).length := by
    intro parent hup
    have hpar := parent_reachable hinv hn hup
    exact List.length_pos.mpr (List.ne_nil_of_mem hpar.2)
  refine ⟨?_, ?_, ?_, ?_, ?_⟩
  · intro fuel pv ps hup
    exact delete_root hup
  · intro fuel pv parent c h3 hup hch hok
    have hdt : distTransfer h n parent true =
        .ok { h with dist := upd h.dist c (h.dist c + h.dist n) } := by
      unfold distTransfer
      rw [hch]
      rfl
    rcases splice_main hinv hn hup hdt with ⟨l2, hsf⟩
    have hK : (({ h with dist := upd h.dist c (h.dist c + h.dist n) } : Heap).children n).filterMap id = [c] := by
      show (h.children n).filterMap id = [c]
      rw [hch]
      rfl
    have hcond : ¬ (pv ∧
        ((spliceHeap { h with dist := upd h.dist c (h.dist c + h.dist n) } n parent l2).children parent).length < 2) := by
      rintro ⟨-, hlt⟩
      rw [hsf.len_parent, hK] at hlt
      have := hlenp hup
      simp at hlt
      omega
    rw [delete_step hup hdt hsf.ok, if_neg hcond] at hok
    cases hok
    rw [hsf.dist_eq]
    show upd h.dist c (h.dist c + h.dist n) c = _
    rw [upd, if_pos rfl]
  · intro fuel pv parent hup hch
    have hdt : distTransfer h n parent true =
        .error ("TypeError: cannot read dist of undefined", h) := by
      unfold distTransfer
      rw [hch]
      rfl
    exact delete_dist_err hup hdt
  · intro fuel pv parent h3 hup hlen hok
    have hne1 : ¬ ((h.children n).length = 1) := by omega
    have hdt : distTransfer h n parent true =
        .ok { h with dist := upd h.dist parent (h.dist parent + h.dist n) } := by
      unfold distTransfer
      rw [if_pos rfl, if_neg hne1, if_pos hlen]
    rcases splice_main hinv hn hup hdt with ⟨l2, hsf⟩
    have hpar := parent_reachable hinv hn hup
    have hdgoal : (spliceHeap { h with dist := upd h.dist parent (h.dist parent + h.dist n) } n parent l2).dist parent =
        h.dist parent + h.dist n := by
      rw [hsf.dist_eq]
      show upd h.dist parent (h.dist parent + h.dist n) parent = _
      rw [upd, if_pos rfl]
    rw [delete_step hup hdt hsf.ok] at hok
    by_cases hcond : pv ∧
        ((spliceHeap { h with dist := upd h.dist parent (h.dist parent + h.dist n) } n parent l2).children parent).length < 2
    · rw [if_pos hcond] at hok
      obtain ⟨-, hlt⟩ := hcond
      rw [hsf.len_parent] at hlt
      have hlp := hlenp hup
      have hKnil : (({ h with dist := upd h.dist parent (h.dist parent + h.dist n) } : Heap).children n).filterMap id = [] := by
        apply List.length_eq_zero.mp
        omega
      have hlp1 : (h.children parent).length = 1 := by omega
      have hchp : h.children parent = [some n] := by
        rcases List.length_eq_one.mp hlp1 with ⟨a, ha⟩
        have := hpar.2
        rw [ha] at this
        rcases List.mem_singleton.mp this with rfl
        exact ha
      have h3len : ((spliceHeap { h with dist := upd h.dist parent (h.dist parent + h.dist n) } n parent l2).children parent).length = 1 := by
        rw [hsf.len_parent, hKnil, hlp1]
        rfl
      have h3p : (spliceHeap { h with dist := upd h.dist parent (h.dist parent + h.dist n) } n parent l2).children parent = [none] := by
        rcases List.length_eq_one.mp h3len with ⟨a, ha⟩
        cases a with
        | none => exact ha
        | some y =>
          have hmem : some y ∈ (spliceHeap { h with dist := upd h.dist parent (h.dist parent + h.dist n) } n parent l2).children parent := by
            rw [ha]
            exact List.mem_singleton.mpr rfl
          rcases hsf.mem_parent y hmem with hm | hm
          · rw [hchp] at hm
            rcases List.mem_singleton.mp hm with hm2
            cases Option.some.inj hm2
            exact absurd hmem (hsf.gone parent hsf.parent_reach)
          · rw [hKnil] at hm
            exact absurd hm (List.not_mem_nil y)
      cases fuel with
      | zero =>
        exact Except.noConfusion hok
      | succ fuel2 =>
        cases hupp : (spliceHeap { h with dist := upd h.dist parent (h.dist parent + h.dist n) } n parent l2).up parent with
        | none =>
          rw [delete_root hupp] at hok
          cases hok
          exact hdgoal
        | some gp =>
          have hdt2 : distTransfer (spliceHeap { h with dist := upd h.dist parent (h.dist parent + h.dist n) } n parent l2) parent gp true =
              .error ("TypeError: cannot read dist of undefined",
                spliceHeap { h with dist := upd h.dist parent (h.dist parent + h.dist n) } n parent l2) := by
            unfold distTransfer
            rw [h3p]
            rfl
          rw [delete_dist_err hupp hdt2] at hok
          exact Except.noConfusion hok
    · rw [if_neg hcond] at hok
      cases hok
      exact hdgoal
  · intro fuel pv ps parent h3 hup hok
    cases hdt : distTransfer h n parent ps with
    | error e =>
      rw [delete_dist_err hup hdt] at hok
      exact Except.noConfusion hok
    | ok h1 =>
      rcases splice_main hinv hn hup hdt with ⟨l2, hsf⟩
      have hKeq : presentChildren h n = (h1.children n).filterMap id := by
        show (h.children n).filterMap id = _
        rw [(distTransfer_structure hdt).2.1]
      rw [delete_step hup hdt hsf.ok] at hok
      by_cases hcond : pv ∧
          ((spliceHeap h1 n parent l2).children parent).length < 2
      · rw [if_pos hcond] at hok
        obtain ⟨-, hlt⟩ := hcond
        rw [hsf.len_parent] at hlt
        have hlp := hlenp hup
        have hKnil : (h1.children n).filterMap id = [] := by
          apply List.length_eq_zero.mp
          omega
        have hrm := delete_removed (r := r) (x := n) fuel
          (spliceHeap h1 n parent l2) parent pv ps hsf.inv hsf.parent_reach
          hsf.up_n hsf.gone
        have hres : resHeapD (delete fuel (spliceHeap h1 n parent l2) parent pv ps) = h3 := by
          rw [hok]
          rfl
        rw [hres] at hrm
        refine ⟨?_, hrm.1, hrm.2⟩
        intro k hk
        rw [hKeq, hKnil] at hk
        exact absurd hk (List.not_mem_nil k)
      · rw [if_neg hcond] at hok
        cases hok
        refine ⟨?_, hsf.up_n, hsf.gone⟩
        intro k hk
        rw [hKeq] at hk
        exact hsf.reattached k hk

/-- Witness for the amended C3 on the chain: deleting node `2` (whose
children array is `[some 3]`) with `preserveBranchLength` makes child `3`
absorb the branch length, and node `2` ends detached. -/
theorem C3_witness :
    Inv chainH 0 ∧ chainH.up 2 = some 1 ∧ chainH.children 2 = [some 3] ∧
    (resHeapD (delete 5 chainH 2 true true)).dist 3 =
      chainH.dist 3 + chainH.dist 2 ∧
    (resHeapD (delete 5 chainH 2 true true)).up 2 = none := by
  have hr1 : Reach chainH 0 1 := @Reach.step chainH 0 0 1 Reach.refl (by decide)
  have hr2 : Reach chainH 0 2 := @Reach.step chainH 0 1 2 hr1 (by decide)
  have hth := C3_delete_amended inv_chainH hr2
  refine ⟨inv_chainH, by decide, by decide, ?_, ?_⟩
  · exact hth.2.1 4 true 1 3 (resHeapD (delete 5 chainH 2 true true))
      (by decide) (by decide) (by rfl)
  · exact (hth.2.2.2.2 4 true true 1 (resHeapD (delete 5 chainH 2 true true))
      (by decide) (by rfl)).2.1

/-- Mapping a function that fixes every element of a list leaves the list
unchanged. -/
theorem map_id_of {α : Type} (l : List α) (f : α → α) (h : ∀ a ∈ l, f a = a) :
    l.map f = l := by
  induction l with
  | nil => rfl
  | cons a t ih =>
    rw [List.map_cons, h a (List.mem_cons_self a t),
      ih (fun b hb => h b (List.mem_cons_of_mem a hb))]

/-- Updating under a key different from the head's key leaves the head in
place and updates the tail. -/
theorem assocUpd_head_ne {kv : String × List Nat} {rest : List (String × List Nat)}
    {k : String} (v : List Nat) (hne : kv.1 ≠ k) :
    assocUpd (kv :: rest) k v = kv :: assocUpd rest k v := by
  unfold assocUpd
  rw [List.any_cons, decide_eq_false hne, Bool.false_or]
  by_cases hany : rest.any (fun e => decide (e.1 = k)) = true
  · rw [if_pos hany, if_pos hany, List.map_cons, if_neg hne]
  · rw [if_neg hany, if_neg hany, List.cons_append]

/-- Updating under the head's own key, when the tail is free of that key,
replaces the head entry and leaves the tail unchanged. -/
theorem assocUpd_head_eq {kv : String × List Nat} {rest : List (String × List Nat)}
    {k : String} (v : List Nat) (heq : kv.1 = k)
    (hno : ¬ rest.any (fun e => decide (e.1 = k)) = true) :
    assocUpd (kv :: rest) k v = (k, v) :: rest := by
  unfold assocUpd
  rw [if_pos (by rw [List.any_cons, decide_eq_true heq, Bool.true_or]),
    List.map_cons, if_pos heq]
  have hrest : rest.map (fun e => if e.1 = k then (k, v) else e) = rest := by
    apply map_id_of
    intro e he
    have hek : ¬ e.1 = k :=
      fun hek => hno (List.any_eq_true.mpr ⟨e, he, decide_eq_true hek⟩)
    rw [if_neg hek]
  rw [hrest]

/-- `assocUpd` keeps the keys duplicate-free. -/
theorem akeys_assocUpd_nodup (m : List (String × List Nat)) (k : String)
    (v : List Nat) (hnd : (m.map Prod.fst).Nodup) :
    ((assocUpd m k v).map Prod.fst).Nodup := by
  unfold assocUpd
  by_cases hany : m.any (fun e => decide (e.1 = k)) = true
  · rw [if_pos hany, List.map_map]
    have hsame : (m.map (Prod.fst ∘ fun e => if e.1 = k then (k, v) else e))
        = m.map Prod.fst := by
      apply List.map_congr_left
      intro e _
      show (if e.1 = k then (k, v) else e).1 = e.1
      by_cases he : e.1 = k
      · rw [if_pos he, he]
      · rw [if_neg he]
    rw [hsame]
    exact hnd
  · rw [if_neg hany, List.map_append]
    have hkni : k ∉ m.map Prod.fst := by
      intro hk
      rcases List.mem_map.mp hk with ⟨e, he, hek⟩
      exact hany (List.any_eq_true.mpr ⟨e, he, decide_eq_true hek⟩)
    simp [List.nodup_append, hnd, hkni]

/-- Lookup after `assocUpd`: the updated key reads back the new value,
every other key is untouched (the keys being duplicate-free). -/
theorem alookup_assocUpd (m : List (String × List Nat)) (k k2 : String)
    (v : List Nat) (hnd : (m.map Prod.fst).Nodup) :
    alookup (assocUpd m k v) k2 = if k = k2 then some v else alookup m k2 := by
  induction m with
  | nil =>
    have h0 : assocUpd [] k v = [(k, v)] := rfl
    rw [h0, alookup, alookup]
    by_cases h2 : k = k2
    · rw [if_pos h2, if_pos h2]
    · rw [if_neg h2, if_neg h2, alookup]
  | cons kv rest ih =>
    have hnd2 : (rest.map Prod.fst).Nodup := (List.nodup_cons.mp hnd).2
    have hknotin : kv.1 ∉ rest.map Prod.fst := (List.nodup_cons.mp hnd).1
    by_cases hk : kv.1 = k
    · have hno : ¬ rest.any (fun e => decide (e.1 = k)) = true := by
        intro hany
        rcases List.any_eq_true.mp hany with ⟨e, he, hek⟩
        have hek2 : e.1 = k := of_decide_eq_true hek
        exact hknotin (by rw [hk, ← hek2]; exact List.mem_map_of_mem Prod.fst he)
      rw [assocUpd_head_eq v hk hno, alookup, alookup]
      by_cases h2 : k = k2
      · rw [if_pos h2, if_pos h2]
      · rw [if_neg h2, if_neg h2, if_neg (by rw [hk]; exact h2)]
    · rw [assocUpd_head_ne v hk, alookup, alookup]
      by_cases hh : kv.1 = k2
      · have hne2 : ¬ k = k2 := fun h2 => hk (hh.trans h2.symm)
        rw [if_pos hh, if_neg hne2, if_pos hh]
      · rw [if_neg hh, ih hnd2, if_neg hh]

/-- Characterisation of the path map `buildPaths` accumulates: its keys
stay duplicate-free, and each key reads back the upward path of the LAST
target carrying that name — earlier same-named targets are overwritten. -/
theorem buildPaths_alookup (h : Heap) (fuel : Nat) :
    ∀ (ts : List Nat) (m0 m : List (String × List Nat)),
    (m0.map Prod.fst).Nodup →
    buildPaths h fuel ts m0 = some m →
    (m.map Prod.fst).Nodup ∧
    ∀ k, alookup m k =
      match lastNamed h k ts with
      | some u => upPath h fuel u
      | none => alookup m0 k := by
  intro ts
  induction ts with
  | nil =>
    intro m0 m hnd hbp
    rw [buildPaths] at hbp
    cases hbp
    exact ⟨hnd, fun k => by rw [lastNamed]⟩
  | cons t ts ih =>
    intro m0 m hnd hbp
    rw [buildPaths] at hbp
    cases hup : upPath h fuel t with
    | none => rw [hup] at hbp; cases hbp
    | some pth =>
      rw [hup] at hbp
      have hnd2 := akeys_assocUpd_nodup m0 (h.name t) pth hnd
      obtain ⟨hndm, hlk⟩ := ih (assocUpd m0 (h.name t) pth) m hnd2 hbp
      refine ⟨hndm, fun k => ?_⟩
      rw [hlk k, lastNamed]
      cases hlast : lastNamed h k ts with
      | some u => rfl
      | none =>
        rw [alookup_assocUpd m0 (h.name t) k pth hnd]
        by_cases hnk : h.name t = k
        · rw [if_pos hnk, if_pos hnk]
          show some pth = upPath h fuel t
          rw [hup]
        · rw [if_neg hnk, if_neg hnk]

/-- A node in the target list guarantees a last target carrying its name. -/
theorem lastNamed_isSome_of_mem (h : Heap) (t : Nat) :
    ∀ ts : List Nat, t ∈ ts → ∃ u, lastNamed h (h.name t) ts = some u := by
  intro ts
  induction ts with
  | nil => intro h0; cases h0
  | cons a ts ih =>
    intro hmem
    rw [lastNamed]
    cases hl : lastNamed h (h.name t) ts with
    | some u => exact ⟨u, rfl⟩
    | none =>
      rcases List.mem_cons.mp hmem with heq | hmem2
      · rw [← heq, if_pos rfl]
        exact ⟨t, rfl⟩
      · rcases ih hmem2 with ⟨u, hu⟩
        rw [hl] at hu
        cases hu

/-- The last node with a given name is in the list and carries the name. -/
theorem lastNamed_spec (h : Heap) (k : String) :
    ∀ (ts : List Nat) (u : Nat),
    lastNamed h k ts = some u → u ∈ ts ∧ h.name u = k := by
  intro ts
  induction ts with
  | nil => intro u hu; cases hu
  | cons a ts ih =>
    intro u hu
    rw [lastNamed] at hu
    cases hl : lastNamed h k ts with
    | some v =>
      rw [hl] at hu
      injection hu with hvu
      obtain ⟨hm, hn⟩ := ih v hl
      rw [← hvu]
      exact ⟨List.mem_cons_of_mem a hm, hn⟩
    | none =>
      rw [hl] at hu
      by_cases hk : h.name a = k
      · rw [if_pos hk] at hu
        injection hu with hau
        rw [← hau]
        exact ⟨List.mem_cons_self a ts, hk⟩
      · rw [if_neg hk] at hu
        cases hu

/-- A successful `buildPaths` run means every target's upward walk
terminated within fuel. -/
theorem buildPaths_upPath_isSome (h : Heap) (fuel : Nat) :
    ∀ (ts : List Nat) (m0 m : List (String × List Nat)),
    buildPaths h fuel ts m0 = some m →
    ∀ t ∈ ts, ∃ pth, upPath h fuel t = some pth := by
  intro ts
  induction ts with
  | nil => intro m0 m _ t ht; cases ht
  | cons a ts ih =>
    intro m0 m hbp t ht
    rw [buildPaths] at hbp
    cases hup : upPath h fuel a with
    | none => rw [hup] at hbp; cases hbp
    | some pth =>
      rw [hup] at hbp
      rcases List.mem_cons.mp ht with heq | hmem2
      · exact ⟨pth, heq ▸ hup⟩
      · exact ih _ m hbp t hmem2

/-- A successful lookup exhibits a matching entry of the list. -/
theorem alookup_some_mem :
    ∀ (m : List (String × List Nat)) (k : String) (v : List Nat),
    alookup m k = some v → (k, v) ∈ m := by
  intro m
  induction m with
  | nil => intro k v h0; cases h0
  | cons kv rest ih =>
    intro k v hl
    rw [alookup] at hl
    by_cases hk : kv.1 = k
    · rw [if_pos hk] at hl
      injection hl with hv
      have hkv : kv = (k, v) := by
        cases kv
        cases hk
        cases hv
        rfl
      rw [← hkv]
      exact List.mem_cons_self kv rest
    · rw [if_neg hk] at hl
      exact List.mem_cons_of_mem kv (ih k v hl)

/-- With duplicate-free keys, every entry is found by lookup under its
own key. -/
theorem alookup_of_mem_nodup :
    ∀ (m : List (String × List Nat)) (kv : String × List Nat),
    (m.map Prod.fst).Nodup → kv ∈ m → alookup m kv.1 = some kv.2 := by
  intro m
  induction m with
  | nil => intro kv _ hmem; cases hmem
  | cons e rest ih =>
    intro kv hnd hmem
    rcases List.mem_cons.mp hmem with heq | hmem2
    · rw [heq, alookup, if_pos rfl]
    · rw [alookup]
      have hne : ¬ e.1 = kv.1 := by
        intro heq2
        have hin : kv.1 ∈ rest.map Prod.fst := List.mem_map_of_mem Prod.fst hmem2
        exact (List.nodup_cons.mp hnd).1 (heq2 ▸ hin)
      rw [if_neg hne]
      exact ih kv (List.nodup_cons.mp hnd).2 hmem2

/-- The `allPaths.every((path) => path.has(node))` test over the built map
is exactly membership in the last-named path of every target. -/
theorem buildPaths_all_iff (h : Heap) (fuel : Nat) (ts : List Nat)
    (m : List (String × List Nat)) (hbp : buildPaths h fuel ts [] = some m)
    (nd : Nat) :
    (m.all (fun kv => decide (nd ∈ kv.2)) = true) ↔
      inEveryNamedPath h fuel ts nd := by
  obtain ⟨hndm, hlk⟩ := buildPaths_alookup h fuel ts [] m List.nodup_nil hbp
  constructor
  · intro hall t hmem
    obtain ⟨u, hu⟩ := lastNamed_isSome_of_mem h t ts hmem
    have hl := hlk (h.name t)
    rw [hu] at hl
    obtain ⟨hum, _⟩ := lastNamed_spec h (h.name t) ts u hu
    obtain ⟨pth, hpth⟩ := buildPaths_upPath_isSome h fuel ts [] m hbp u hum
    have hl2 : alookup m (h.name t) = upPath h fuel u := hl
    rw [hpth] at hl2
    have hmem2 := alookup_some_mem m (h.name t) pth hl2
    have hdec := List.all_eq_true.mp hall _ hmem2
    exact ⟨u, pth, hu, hpth, of_decide_eq_true hdec⟩
  · intro hin
    apply List.all_eq_true.mpr
    intro kv hkv
    have hl := alookup_of_mem_nodup m kv hndm hkv
    have hl2 := hlk kv.1
    cases hlast : lastNamed h kv.1 ts with
    | none =>
      rw [hlast] at hl2
      rw [hl] at hl2
      cases hl2
    | some u =>
      rw [hlast] at hl2
      obtain ⟨hum, hname⟩ := lastNamed_spec h kv.1 ts u hlast
      obtain ⟨u2, pth2, hu2, hpth2, hnd2⟩ := hin u hum
      rw [hname, hlast] at hu2
      injection hu2 with hu2e
      rw [← hu2e] at hpth2
      have hl3 : alookup m kv.1 = upPath h fuel u := hl2
      rw [hpth2, hl] at hl3
      injection hl3 with he
      exact decide_eq_true (he ▸ hnd2)

/-- A successful `find?` splits the list at the first satisfying element:
nothing before it satisfies the predicate. -/
theorem find_first {α : Type} (p : α → Bool) :
    ∀ (l : List α) (a : α), l.find? p = some a →
    ∃ pre post, l = pre ++ a :: post ∧ p a = true ∧ ∀ x ∈ pre, p x = false := by
  intro l
  induction l with
  | nil => intro a ha; cases ha
  | cons b t ih =>
    intro a ha
    cases hp : p b with
    | true =>
      rw [List.find?_cons_of_pos _ hp] at ha
      injection ha with hba
      refine ⟨[], t, by rw [← hba]; rfl, hba ▸ hp, ?_⟩
      intro x hx
      cases hx
    | false =>
      rw [List.find?_cons_of_neg _ (by rw [hp]; exact Bool.false_ne_true)] at ha
      obtain ⟨pre, post, heq, hpa, hpre⟩ := ih a ha
      refine ⟨b :: pre, post, by rw [heq]; rfl, hpa, ?_⟩
      intro x hx
      rcases List.mem_cons.mp hx with hxb | hx2
      · rw [hxb]; exact hp
      · exact hpre x hx2

/-- Unfolding of `getCommonAncestor` in the two-or-more-targets case once
the reference path and the path map are known. -/
theorem getCommonAncestor_cons2 (h : Heap) (fuel : Nat) (gp : Bool)
    (t1 t2 : Nat) (ts : List Nat) (reference : List Nat)
    (m : List (String × List Nat))
    (href : upPath h fuel t1 = some reference)
    (hbp : buildPaths h fuel (t1 :: t2 :: ts) [] = some m) :
    getCommonAncestor h fuel (t1 :: t2 :: ts) gp =
      match reference.find? (fun nd => m.all (fun kv => decide (nd ∈ kv.2))) with
      | some c => Except.ok ⟨c, if gp then some m else none⟩
      | none => Except.error "Nodes are not connected!" := by
  show (match upPath h fuel t1, buildPaths h fuel (t1 :: t2 :: ts) [] with
    | some reference, some m =>
      (match reference.find? (fun nd => m.all (fun kv => decide (nd ∈ kv.2))) with
        | some c => Except.ok (⟨c, if gp then some m else none⟩ : GCAOut)
        | none => Except.error "Nodes are not connected!")
    | _, _ => (Except.error "out of fuel" : Except String GCAOut)) = _
  rw [href, hbp]

/-- Heap for the C5 counterexample: root `0` with children `1` and `2`;
node `1` has the child `3` named "B"; node `2` has the children `4` named
"A" and `5` named "B".  Two targets share the name "B". -/
def cHeapB : Heap where
  up := fun i =>
    if i = 1 then some 0 else if i = 2 then some 0 else if i = 3 then some 1
    else if i = 4 then some 2 else if i = 5 then some 2 else none
  children := fun i =>
    if i = 0 then [some 1, some 2] else if i = 1 then [some 3]
    else if i = 2 then [some 4, some 5] else []
  name := fun i =>
    if i = 4 then "A" else if i = 3 then "B" else if i = 5 then "B" else ""
  dist := fun _ => 1
  support := fun _ => 1
  fresh := 6

/-- Counterexample to C5 as stated: with targets `[4, 3, 5]`, nodes `3`
and `5` both named "B", the name-keyed map keeps only node `5`'s path, so
the probe accepts node `2` — although `2` is NOT in target `3`'s path set
`\x7b3, 1, 0\x7d`, contradicting "occurs in every target's path set" (that
reading forces the answer `0`, the first reference node on `3`'s path). -/
theorem C5_counterexample :
    getCommonAncestor cHeapB 10 [4, 3, 5] false = .ok ⟨2, none⟩ ∧
    upPath cHeapB 10 3 = some [3, 1, 0] ∧
    ((2 : Nat) ∈ [3, 1, 0] → False) ∧
    (3 : Nat) ∈ [4, 3, 5] :=
  ⟨rfl, rfl, by decide, by decide⟩

/-- C5 (amended): `getCommonAncestor` errors on no targets; returns a
single target as is (with an empty path map when requested); and with two
or more targets returns the first node of the first target's upward path
that lies in every path of the name-keyed map — the path of the LAST
target of each name, not every target's own path — throwing "Nodes are
not connected!" when no reference node qualifies. -/
theorem C5_common_ancestor (h : Heap) (fuel : Nat) (gp : Bool) :
    getCommonAncestor h fuel [] gp =
      .error "getCommonAncestor called with an empty array" ∧
    (∀ t, getCommonAncestor h fuel [t] gp =
      .ok ⟨t, if gp then some [] else none⟩) ∧
    (∀ t1 t2 ts reference m,
      upPath h fuel t1 = some reference →
      buildPaths h fuel (t1 :: t2 :: ts) [] = some m →
      ((∃ c pre post,
          getCommonAncestor h fuel (t1 :: t2 :: ts) gp =
            .ok ⟨c, if gp then some m else none⟩ ∧
          reference = pre ++ c :: post ∧
          inEveryNamedPath h fuel (t1 :: t2 :: ts) c ∧
          ∀ x ∈ pre, ¬ inEveryNamedPath h fuel (t1 :: t2 :: ts) x) ∨
        ((∀ x ∈ reference, ¬ inEveryNamedPath h fuel (t1 :: t2 :: ts) x) ∧
          getCommonAncestor h fuel (t1 :: t2 :: ts) gp =
            .error "Nodes are not connected!"))) := by
  refine ⟨rfl, fun t => rfl, ?_⟩
  intro t1 t2 ts reference m href hbp
  have hgca := getCommonAncestor_cons2 h fuel gp t1 t2 ts reference m href hbp
  cases hfind : reference.find? (fun nd => m.all (fun kv => decide (nd ∈ kv.2))) with
  | some c =>
    left
    obtain ⟨pre, post, heq, hpc, hpre⟩ := find_first _ reference c hfind
    refine ⟨c, pre, post, by rw [hgca, hfind], heq,
      (buildPaths_all_iff h fuel _ m hbp c).mp hpc, ?_⟩
    intro x hx hcontra
    have h2 := (buildPaths_all_iff h fuel _ m hbp x).mpr hcontra
    rw [hpre x hx] at h2
    cases h2
  | none =>
    right
    refine ⟨?_, by rw [hgca, hfind]⟩
    intro x hx hcontra
    have h1 := List.find?_eq_none.mp hfind x hx
    exact h1 ((buildPaths_all_iff h fuel _ m hbp x).mpr hcontra)

/-- Witness for the amended C5 on `cHeapB` with targets `[4, 3, 5]`: the
hypotheses of the many-target case hold concretely, and the resulting
disjunction is delivered. -/
theorem C5_witness :
    upPath cHeapB 10 4 = some [4, 2, 0] ∧
    buildPaths cHeapB 10 [4, 3, 5] [] =
      some [("A", [4, 2, 0]), ("B", [5, 2, 0])] ∧
    ((∃ c pre post,
        getCommonAncestor cHeapB 10 [4, 3, 5] false =
          .ok ⟨c, none⟩ ∧
        ([4, 2, 0] : List Nat) = pre ++ c :: post ∧
        inEveryNamedPath cHeapB 10 [4, 3, 5] c ∧
        ∀ x ∈ pre, ¬ inEveryNamedPath cHeapB 10 [4, 3, 5] x) ∨
      ((∀ x ∈ ([4, 2, 0] : List Nat),
          ¬ inEveryNamedPath cHeapB 10 [4, 3, 5] x) ∧
        getCommonAncestor cHeapB 10 [4, 3, 5] false =
          .error "Nodes are not connected!")) :=
  ⟨rfl, rfl, (C5_common_ancestor cHeapB 10 false).2.2 4 3 [5] [4, 2, 0]
    [("A", [4, 2, 0]), ("B", [5, 2, 0])] rfl rfl⟩

/-- Heap for the C6 failing input: root `0` named "r" with a single child
`1` named "A". -/
def cHeapC : Heap where
  up := fun i => if i = 1 then some 0 else none
  children := fun i => if i = 0 then [some 1] else []
  name := fun i => if i = 0 then "r" else if i = 1 then "A" else ""
  dist := fun _ => 1
  support := fun _ => 1
  fresh := 2

/-- C6 is a code bug: on a tree holding exactly one node named "A", the
resolver fails with the not-found error instead of resolving "A".  The
guard `n.name in Object.keys(name2node)` tests the KEY ARRAY's property
names (index strings and "length"), which "A" never is, so no name is
ever resolved unless it looks like an array index. -/
theorem C6_translateNodes_bug :
    (1 ∈ traverseLevelH cHeapC 10 [0] ∧ cHeapC.name 1 = "A") ∧
    ((traverseLevelH cHeapC 10 [0]).filter
      (fun n => cHeapC.name n = "A")).length = 1 ∧
    _translateNodes cHeapC 10 0 [.str "A"] =
      .error "Node name(s) not found: A" :=
  ⟨⟨by decide, rfl⟩, by decide, rfl⟩

end PhyloJs
